import Mathlib

/-!
Verification development for the address-deduplication backend
(`Backend - comparação direta/app.py`).

The Python source is shallowly embedded below: strings are `List Char` /
`String`, pandas rows are association lists from column name to optional
string value, the Redis task store is an association list from key to the
stored dataset, and the fixed regular expressions of
`normalize_address_val` are modelled by an executable scanner specialised
to their shape (alternations of word-boundary-delimited literals).
-/

namespace PAF

/-- Model of Python's `\w` character class, for the ASCII range the
application works in after transliteration: letters, digits, underscore. -/
def isWordChar (c : Char) : Bool :=
  c.isAlpha || c.isDigit || c == '_'

/-- Model of Python's `\s` character class (ASCII whitespace). -/
def isPySpace (c : Char) : Bool :=
  c == ' ' || c == '\t' || c == '\n' || c == '\r' || c == '\x0b' || c == '\x0c'

/-- Lower-casing table for `str.lower()`: ASCII `A`–`Z` plus the Latin-1
uppercase letters (`À`–`Þ`, excluding `×`), which cover the characters
relevant to Brazilian address data. -/
def LOWER_TABLE : List (Char × Char) :=
  [('A', 'a'), ('B', 'b'), ('C', 'c'), ('D', 'd'), ('E', 'e'), ('F', 'f'),
   ('G', 'g'), ('H', 'h'), ('I', 'i'), ('J', 'j'), ('K', 'k'), ('L', 'l'),
   ('M', 'm'), ('N', 'n'), ('O', 'o'), ('P', 'p'), ('Q', 'q'), ('R', 'r'),
   ('S', 's'), ('T', 't'), ('U', 'u'), ('V', 'v'), ('W', 'w'), ('X', 'x'),
   ('Y', 'y'), ('Z', 'z'),
   ('À', 'à'), ('Á', 'á'), ('Â', 'â'), ('Ã', 'ã'), ('Ä', 'ä'), ('Å', 'å'),
   ('Æ', 'æ'), ('Ç', 'ç'), ('È', 'è'), ('É', 'é'), ('Ê', 'ê'), ('Ë', 'ë'),
   ('Ì', 'ì'), ('Í', 'í'), ('Î', 'î'), ('Ï', 'ï'), ('Ð', 'ð'), ('Ñ', 'ñ'),
   ('Ò', 'ò'), ('Ó', 'ó'), ('Ô', 'ô'), ('Õ', 'õ'), ('Ö', 'ö'), ('Ø', 'ø'),
   ('Ù', 'ù'), ('Ú', 'ú'), ('Û', 'û'), ('Ü', 'ü'), ('Ý', 'ý'), ('Þ', 'þ')]

/-- Per-character model of Python's `str.lower()` on the modelled character
set (identity outside it). -/
def charLower (c : Char) : Char :=
  match LOWER_TABLE.lookup c with
  | some d => d
  | none => c

/-- Transliteration table of the external `unidecode` library for the
non-ASCII characters relevant here (Latin-1 letters and signs as they can
appear in Brazilian addresses).  In particular the degree sign `°` is
transliterated to the three letters `deg`, and the masculine ordinal `º`
to `o`, exactly as the library does. -/
def UNI_TABLE : List (Char × String) :=
  [('à', "a"), ('á', "a"), ('â', "a"), ('ã', "a"), ('ä', "a"), ('å', "a"),
   ('æ', "ae"), ('ç', "c"), ('è', "e"), ('é', "e"), ('ê', "e"), ('ë', "e"),
   ('ì', "i"), ('í', "i"), ('î', "i"), ('ï', "i"), ('ð', "d"), ('ñ', "n"),
   ('ò', "o"), ('ó', "o"), ('ô', "o"), ('õ', "o"), ('ö', "o"), ('ø', "o"),
   ('ù', "u"), ('ú', "u"), ('û', "u"), ('ü', "u"), ('ý', "y"), ('þ', "th"),
   ('ß', "ss"), ('°', "deg"), ('º', "o"), ('ª', "a"), ('\xa0', " ")]

/-- Per-character model of `unidecode.unidecode`: codepoints below `0x80`
pass through unchanged (as in the library), the modelled non-ASCII
characters follow the library's table, anything else is left unchanged
(out of the modelled character set). -/
def charUnidecode (c : Char) : List Char :=
  if c.toNat < 128 then [c]
  else
    match UNI_TABLE.lookup c with
    | some s => s.data
    | none => [c]

/-- `str.lower()` over a whole string. -/
def pyLower (l : List Char) : List Char := l.map charLower

/-- `unidecode.unidecode` over a whole string. -/
def pyUnidecode (l : List Char) : List Char := l.flatMap charUnidecode

/-- One alternative of one substitution pattern: a literal preceded by a
word boundary `\b`, optionally followed by a second `\b` (`endB`). -/
structure SubAlt where
  lit : List Char
  endB : Bool
deriving Repr, DecidableEq

/-- One substitution rule `re.sub(alt₁|alt₂|…, repl, s)`. -/
structure SubRule where
  alts : List SubAlt
  repl : List Char
deriving Repr, DecidableEq

/-- Wordness of an optional character; positions outside the string count
as non-word for `\b`. -/
def isWordOpt : Option Char → Bool
  | some c => isWordChar c
  | none => false

/-- Length consumed by one alternative when it matches at the current
position of `s` (`prevW` is the wordness of the preceding character), `0`
when it does not match.  A `\b` holds between two positions of different
wordness. -/
def altLen (prevW : Bool) (a : SubAlt) (s : List Char) : Nat :=
  match a.lit with
  | [] => 0
  | f :: _ =>
    if (s.take a.lit.length == a.lit)
        && (prevW != isWordChar f)
        && (!a.endB
            || (isWordChar (a.lit.getLastD f)
                != isWordOpt (s.drop a.lit.length).head?)) then
      a.lit.length
    else 0

/-- First alternative (in pattern order) matching at the current position,
as Python's regex alternation does. -/
def firstAlt (prevW : Bool) (alts : List SubAlt) (s : List Char) :
    Option SubAlt :=
  alts.find? (fun a => altLen prevW a s != 0)

/-- Scanner of `re.sub` for one rule: walk the string left to right; at
each position (when not inside a previous match, `skip = 0`) emit the
replacement and start skipping the matched literal if some alternative
matches, else keep the character.  `prevW` tracks the wordness of the
previous character of the original string (boundaries are checked against
the original text, as Python does). -/
def subAux (r : SubRule) : Nat → Bool → List Char → List Char
  | _, _, [] => []
  | Nat.succ k, prevW, _ :: rest => subAux r k prevW rest
  | 0, prevW, c :: rest =>
    match firstAlt prevW r.alts (c :: rest) with
    | some a =>
        r.repl ++ subAux r (a.lit.length - 1) (isWordChar (a.lit.getLastD c)) rest
    | none => c :: subAux r 0 (isWordChar c) rest

/-- `re.sub(pattern, repl, s)` for one rule. -/
def applyRule (r : SubRule) (s : List Char) : List Char := subAux r 0 false s

/-- The nine substitution rules of `normalize_address_val`, in source
order. -/
def SUB_RULES : List SubRule :=
  [⟨[⟨"rua".data, true⟩, ⟨"r.".data, false⟩], "r".data⟩,
   ⟨[⟨"avenida".data, true⟩, ⟨"av.".data, false⟩], "av".data⟩,
   ⟨[⟨"numero".data, true⟩, ⟨"n°".data, true⟩, ⟨"n.".data, false⟩], "n".data⟩,
   ⟨[⟨"apartamento".data, true⟩, ⟨"apto".data, true⟩, ⟨"ap.".data, false⟩],
     "ap".data⟩,
   ⟨[⟨"lote".data, true⟩], "lt".data⟩,
   ⟨[⟨"quadra".data, true⟩], "qd".data⟩,
   ⟨[⟨"bloco".data, true⟩], "bl".data⟩,
   ⟨[⟨"casa".data, true⟩], "cs".data⟩,
   ⟨[⟨"sao".data, true⟩], "s".data⟩]

/-- The abbreviation-substitution pass: the nine `re.sub` calls applied in
source order. -/
def applySubs (s : List Char) : List Char :=
  SUB_RULES.foldl (fun acc r => applyRule r acc) s

/-- `re.sub(r'[^\w\s]', '', s)`: strip everything except word characters
and whitespace. -/
def stripPunct (l : List Char) : List Char :=
  l.filter (fun c => isWordChar c || isPySpace c)

/-- Python's `str.strip()`: drop leading and trailing whitespace. -/
def pyStrip (l : List Char) : List Char :=
  ((l.dropWhile isPySpace).reverse.dropWhile isPySpace).reverse

/-- Scanner of `re.sub(r'\s+', ' ', s)`: a whitespace character opening a
run (`inRun = false`) is emitted as a single space, further whitespace of
the same run is dropped. -/
def collapseAux : Bool → List Char → List Char
  | _, [] => []
  | inRun, c :: rest =>
    if isPySpace c then
      if inRun then collapseAux true rest
      else ' ' :: collapseAux true rest
    else c :: collapseAux false rest

/-- `re.sub(r'\s+', ' ', s)`: collapse every maximal whitespace run into a
single space. -/
def collapseWs (l : List Char) : List Char := collapseAux false l

/-- The normalization pipeline of `normalize_address_val` on the character
list of a non-null value: lower-case, transliterate, apply the nine
substitutions, strip punctuation and surrounding whitespace, collapse
whitespace runs. -/
def normalizeCore (l : List Char) : List Char :=
  collapseWs (pyStrip (stripPunct (applySubs (pyUnidecode (pyLower l)))))

/-- `normalize_address_val`: `none` models a null/NaN cell, which (like the
empty string) normalizes to the empty string. -/
def normalize_address_val (v : Option String) : String :=
  match v with
  | none => ""
  | some s => if s = "" then "" else String.mk (normalizeCore s.data)

/-- The fixed alias table `POSSIBLE_COLUMN_MAPPINGS` of the source, in its
iteration order. -/
def POSSIBLE_COLUMN_MAPPINGS : List (String × List String) :=
  [("Proposta", ["proposta", "proposal", "numero_proposta", "proposal_number",
                 "nr_proposta"]),
   ("Logradouro", ["logradouro", "endereco", "rua", "enderecamento", "street"]),
   ("Número", ["numero", "num", "number", "nr", "no"]),
   ("Complemento", ["complemento", "compl", "complement", "apto",
                    "apartamento", "apartment"]),
   ("Bairro", ["bairro", "district", "neighborhood"]),
   ("Cidade", ["cidade", "city", "municipio", "town"]),
   ("UF", ["uf", "estado", "state", "sigla_uf"]),
   ("CEP", ["cep", "zip", "zipcode", "postal", "postal_code"]),
   ("Cliente", ["cliente", "customer", "nome", "name", "nome_cliente",
                "customer_name"]),
   ("Tipo de Pessoa", ["tipo_pessoa", "person_type", "tipo"]),
   ("CPF/CNPJ", ["cpf", "cnpj", "cpf_cnpj", "documento", "document", "id"])]

/-- The Standard Fields, in the table's enumeration order. -/
def STANDARD_FIELDS : List String := POSSIBLE_COLUMN_MAPPINGS.map (·.1)

/-- `str(col).lower().replace(" ", "")`: the normalized column-name form
used by the reconciler. -/
def normName (s : String) : String :=
  String.mk ((s.data.map charLower).filter (fun c => c != ' '))

/-- Python `dict` update: replace the value in place if the key is present,
append otherwise. -/
def dictUpd {κ ν : Type} [BEq κ] (d : List (κ × ν)) (k : κ) (v : ν) :
    List (κ × ν) :=
  if d.any (fun p => p.1 == k) then
    d.map (fun p => if p.1 == k then (k, v) else p)
  else d ++ [(k, v)]

/-- `df_cols_lower_stripped`: the dict from normalized column name to
original column name, built over the input columns in order (later
duplicates overwrite earlier ones). -/
def buildColDict (cols : List String) : List (String × String) :=
  cols.foldl (fun d c => dictUpd d (normName c) c) []

/-- Truthiness of `found_col` in the source (`None` and `''` are falsy). -/
def optTruthy : Option String → Bool
  | some c => c != ""
  | none => false

/-- The `found_col` computed for one Standard Field: its own normalized
name first; when that is falsy, the first alias present in the column
dict (the loop breaks on dict membership); finally the truthiness check
before insertion (`if found_col:`), rendered as an `Option`. -/
def fieldFound (d : List (String × String)) (kv : String × List String) :
    Option String :=
  let found0 : Option String := d.lookup (normName kv.1)
  let found1 : Option String :=
    if optTruthy found0 then found0
    else
      match kv.2.find? (fun v => (d.lookup (normName v)).isSome) with
      | some v => d.lookup (normName v)
      | none => found0
  match found1 with
  | some c => if c != "" then some c else none
  | none => none

/-- `get_col_mappings_from_df`: for each Standard Field in table order,
record the `found_col` when it is truthy. -/
def get_col_mappings_from_df (cols : List String) : List (String × String) :=
  let d := buildColDict cols
  POSSIBLE_COLUMN_MAPPINGS.foldl
    (fun m kv =>
      match fieldFound d kv with
      | some c => dictUpd m kv.1 c
      | none => m)
    []

/-- Python's `sep.join(parts)`. -/
def pyJoin (sep : String) : List String → String
  | [] => ""
  | a :: as => as.foldl (fun acc x => acc ++ sep ++ x) a

/-- One spreadsheet row: an association list from column name to optional
cell value (`none` models a missing column or a null/NaN cell; the
endpoint replaces empty strings by null before processing). -/
abbrev Row := List (String × Option String)

/-- `col in row and pd.notna(row[col])` followed by the access: the value
of a cell when the column exists and the value is non-null. -/
def rowGet (row : Row) (col : String) : Option String :=
  match row.lookup col with
  | some (some v) => some v
  | _ => none

/-- The seven address-related Standard Fields, in the fixed concatenation
order of `concatenate_address_for_row`. -/
def ADDRESS_FIELDS : List String :=
  ["Logradouro", "Número", "Complemento", "Bairro", "Cidade", "UF", "CEP"]

/-- `concatenate_address_for_row`: normalize each mapped, present,
non-null address field in order, keep the non-empty results, join with
single spaces. -/
def concatenate_address_for_row (row : Row) (m : List (String × String)) :
    String :=
  let components := ADDRESS_FIELDS.foldl
    (fun acc f =>
      match m.lookup f with
      | some col =>
        if col != "" then
          match rowGet row col with
          | some v =>
            let nv := normalize_address_val (some v)
            if nv != "" then acc ++ [nv] else acc
          | none => acc
        else acc
      | none => acc)
    []
  pyJoin " " components

/-- The six required address fields of the validation check
(`required_address_cols`). -/
def REQUIRED_ADDRESS_COLS : List String :=
  ["Logradouro", "Número", "Bairro", "Cidade", "UF", "CEP"]

/-- First alias of a Standard Field (used in the validation message). -/
def firstAliasOf (f : String) : String :=
  match POSSIBLE_COLUMN_MAPPINGS.lookup f with
  | some (v :: _) => v
  | _ => ""

/-- A single-quote character, as Python's `str(dict)` prints it. -/
def sq : String := String.singleton (Char.ofNat 39)

/-- Python's `str` of a string-to-string dict, as rendered into the
f-string of the validation error. -/
def pyStrDict (pairs : List (String × String)) : String :=
  "\x7b"
    ++ pyJoin ", "
        (pairs.map (fun p => sq ++ p.1 ++ sq ++ ": " ++ sq ++ p.2 ++ sq))
    ++ "\x7d"

/-- The `ValueError` message raised when required address fields are
unmapped. -/
def validationMsg (missing : List String) : String :=
  "Colunas essenciais não encontradas ou não mapeadas corretamente: "
    ++ pyJoin ", " missing
    ++ ". Verifique se o arquivo contém colunas como: "
    ++ pyStrDict (missing.map (fun k => (k, firstAliasOf k)))

/-- The row indices paired with their non-empty Canonical Address Strings
(`df_filtered` with `original_index_col`). -/
def validPairs (addrs : List String) : List (Nat × String) :=
  addrs.enum.filter (fun p => p.2 != "")

/-- Number of occurrences of one canonical string among the valid rows
(`value_counts`). -/
def countAddr (addrs : List String) (a : String) : Nat :=
  ((validPairs addrs).filter (fun p => p.2 == a)).length

/-- The canonical strings occurring more than once
(`duplicated_address_strings`). -/
def dupStrings (addrs : List String) : List String :=
  ((validPairs addrs).map (·.2)).dedup.filter (fun a => countAddr addrs a > 1)

/-- Lexicographic-by-codepoint comparison of character lists, as Python
compares strings. -/
def lexLe : List Char → List Char → Bool
  | [], _ => true
  | _ :: _, [] => false
  | c :: cs, d :: ds => if c < d then true else if d < c then false else lexLe cs ds

/-- Python's `<=` on strings. -/
def pyStrLe (a b : String) : Bool := lexLe a.data b.data

/-- The duplicated canonical strings in the traversal order of the
`groupby`, which sorts its keys ascending. -/
def dupKeysSorted (addrs : List String) : List String :=
  (dupStrings addrs).insertionSort (fun a b => pyStrLe a b = true)

/-- The ascending list of original row indices sharing one canonical
string (`sorted(indices_list_for_group)`). -/
def groupFor (addrs : List String) (a : String) : List Nat :=
  (((validPairs addrs).filter (fun p => p.2 == a)).map (·.1)).insertionSort
    (· ≤ ·)

/-- `groups_indices_list`: one sorted index list per duplicated canonical
string, keeping only lists with more than one element. -/
def groupsIndicesList (addrs : List String) : List (List Nat) :=
  ((dupKeysSorted addrs).map (groupFor addrs)).filter (fun g => g.length > 1)

/-- The fixed five-color palette `GROUP_COLORS`. -/
def GROUP_COLORS : List String :=
  ["group-color-1", "group-color-2", "group-color-3", "group-color-4",
   "group-color-5"]

/-- `GROUP_COLORS[i % len(GROUP_COLORS)]`: the color of the group at rank
`i`. -/
def colorOfRank (i : Nat) : String :=
  GROUP_COLORS.getD (i % GROUP_COLORS.length) ""

/-- The `groupColor` column after the coloring loop: successive
`df.loc[group, 'groupColor'] = color` assignments, one per group rank. -/
def colorAssign (groups : List (List Nat)) : List (Nat × String) :=
  groups.enum.foldl
    (fun mp p => p.2.foldl (fun mp' idx => dictUpd mp' idx (colorOfRank p.1)) mp)
    []

/-- The `groupColor` cell of one original row index. -/
def rowColor (groups : List (List Nat)) (idx : Nat) : Option String :=
  (colorAssign groups).lookup idx

/-- `PREVIEW_DATA_ROWS`. -/
def PREVIEW_DATA_ROWS : Nat := 200

/-- The two working-only columns dropped from the stored dataset. -/
def WORKING_COLS : List String := ["enderecoNormalizado", "original_index_col"]

/-- `df[c] = …` on the column list: append the column name when absent. -/
def addCol (cols : List String) (c : String) : List String :=
  if cols.contains c then cols else cols ++ [c]

/-- The column list of the stored dataset: the working columns and
`groupColor` are added to the frame, then the two working columns are
dropped. -/
def storedCols (cols : List String) : List String :=
  (addCol (addCol (addCol cols "enderecoNormalizado") "original_index_col")
      "groupColor").filter (fun c => !(WORKING_COLS.contains c))

/-- CSV round trip of one cell through Redis: `to_csv` writes null and the
empty string identically, and `read_csv` + `replace({'': None})` turns
both back into null. -/
def csvNormVal : Option String → Option String
  | some v => if v = "" then none else some v
  | none => none

/-- One stored row: the original row projected onto the stored columns,
with the assigned `groupColor` value. -/
def buildStoredRow (colsStore : List String) (row : Row)
    (color : Option String) : Row :=
  colsStore.map
    (fun c =>
      (c, csvNormVal (if c == "groupColor" then color else (row.lookup c).join)))

/-- A stored Task Result: the retained column names and the stored rows
(group-major, index-minor). -/
abbrev StoredDf := List String × List Row

/-- The external task store (Redis): keys to stored datasets. -/
abbrev Store := List (String × StoredDf)

/-- First-seen-order deduplication, as `pandas.unique`. -/
def uniqueFirstAux {α : Type} [BEq α] (seen : List α) : List α → List α
  | [] => []
  | a :: l =>
    if seen.contains a then uniqueFirstAux seen l
    else a :: uniqueFirstAux (a :: seen) l

/-- `Series.unique()` on the stored `groupColor` values. -/
def uniqueFirst {α : Type} [BEq α] (l : List α) : List α := uniqueFirstAux [] l

/-- The JSON payload of a successful Analyze. -/
structure AnalyzeResponse where
  task_id : String
  preview_data : List Row
  total_grouped_items : Nat
  total_groups : Nat
  group_colors_present : List String
deriving Repr, DecidableEq

/-- The required address fields missing from the reconciled mapping
(`missing_mapped_cols`). -/
def missingCols (cols : List String) : List String :=
  REQUIRED_ADDRESS_COLS.filter
    (fun f => ((get_col_mappings_from_df cols).lookup f).isNone)

/-- The canonical address strings of all rows, in row order
(`df['enderecoNormalizado']`). -/
def addrsOf (cols : List String) (rows : List Row) : List String :=
  rows.map (fun r => concatenate_address_for_row r (get_col_mappings_from_df cols))

/-- The rows of `df_to_store_redis`: group-major, index-minor, projected
onto the stored columns and annotated with the group color. -/
def storedRowsOf (cols : List String) (rows : List Row)
    (groups : List (List Nat)) : List Row :=
  groups.flatMap
    (fun g => g.map
      (fun idx => buildStoredRow (storedCols cols) (rows.getD idx [])
        (rowColor groups idx)))

/-- `df_to_store_redis['groupColor'].dropna().unique()`. -/
def groupColorsPresentOf (storedRows : List Row) : List String :=
  uniqueFirst (storedRows.filterMap (fun r => (r.lookup "groupColor").join))

/-- `core_processing_logic_and_prepare_output`, with the task-identifier
randomness (`uuid4().hex`) abstracted into the parameter `fresh` and the
Redis client modelled by the explicit `store`.  A `ValueError` becomes an
`Except.error`; the store is only written on the path that reaches the
`setex` call. -/
def analyze (fresh : String) (cols : List String) (rows : List Row)
    (store : Store) : Except String (AnalyzeResponse × Store) :=
  if (missingCols cols).isEmpty then
    let addrs := addrsOf cols rows
    if (validPairs addrs).isEmpty then
      .ok ({ task_id := fresh, preview_data := [], total_grouped_items := 0,
             total_groups := 0, group_colors_present := [] }, store)
    else
      let groups := groupsIndicesList addrs
      let storedRows := storedRowsOf cols rows groups
      let store' := dictUpd store ("task:" ++ fresh)
        (storedCols cols, storedRows)
      .ok ({ task_id := "task:" ++ fresh,
             preview_data := storedRows.take PREVIEW_DATA_ROWS,
             total_grouped_items := storedRows.length,
             total_groups := groups.length,
             group_colors_present := groupColorsPresentOf storedRows }, store')
  else .error (validationMsg (missingCols cols))

/-- `OUTPUT_FIELD_ORDER`. -/
def OUTPUT_FIELD_ORDER : List String :=
  ["Proposta", "Logradouro", "Bairro", "Número", "Complemento", "Cidade", "UF",
   "CEP", "Cliente", "Tipo de Pessoa", "CPF/CNPJ"]

/-- One exported row, keyed by the Standard Fields of
`OUTPUT_FIELD_ORDER`. -/
abbrev ExportRow := List (String × String)

/-- One cell of the export: prefer the reconciled column's non-null value,
fall back to a column named exactly like the standard field, else the
empty string. -/
def exportCell (m : List (String × String)) (row : Row) (f : String) :
    String :=
  let fallback :=
    match rowGet row f with
    | some v => v
    | none => ""
  match m.lookup f with
  | some col =>
    if col != "" then
      match rowGet row col with
      | some v => v
      | none => fallback
    else fallback
  | none => fallback

/-- One row of the generated spreadsheet. -/
def exportRow (m : List (String × String)) (row : Row) : ExportRow :=
  OUTPUT_FIELD_ORDER.map (fun f => (f, exportCell m row f))

/-- The download reprojection: reconcile the stored dataset's own columns,
then rebuild every row under the fixed output field order. -/
def exportRows (df : StoredDf) : List ExportRow :=
  let m := get_col_mappings_from_df df.1
  df.2.map (exportRow m)

/-- Outcome of `download_processed_endpoint`: a not-found response or the
generated file's rows. -/
inductive DownloadResult where
  | notFound : DownloadResult
  | file : List ExportRow → DownloadResult
deriving Repr, DecidableEq

/-- `download_processed_endpoint`: read the stored Task Result (404 when
absent) and reproject it; the store is returned unchanged — the endpoint
never deletes the key. -/
def download (store : Store) (tid : String) : DownloadResult × Store :=
  match store.lookup tid with
  | none => (.notFound, store)
  | some df => (.file (exportRows df), store)

/-- Spec §4.3, stated in the spec's own words: iterate the seven
address-related Standard Fields in the fixed order; a field contributes
when the Field Mapping has an entry, the row has a non-empty (non-null)
value under the mapped column, and the normalized value is non-empty;
join the contributions with single spaces. -/
def specCanonicalAddress (row : Row) (m : List (String × String)) : String :=
  pyJoin " "
    (ADDRESS_FIELDS.filterMap (fun f =>
      (m.lookup f).bind (fun col =>
        (rowGet row col).bind (fun v =>
          let nv := normalize_address_val (some v)
          if nv = "" then none else some nv))))

/-- The last input column whose normalized form equals `key` (spec §4.2:
later duplicates overwrite earlier ones). -/
def lastMatchCol (cols : List String) (key : String) : Option String :=
  (cols.filter (fun c => normName c == key)).getLast?

/-- Spec §4.2, stated in the spec's own words: for a Standard Field, try
its own normalized name first, then its aliases in fixed order, taking
the first candidate that matches a normalized input column name (the
matched column being the last input column with that normalized name);
fields outside the fixed enumeration, or with no match, are omitted. -/
def specReconcile (cols : List String) (f : String) : Option String :=
  match POSSIBLE_COLUMN_MAPPINGS.lookup f with
  | some aliases =>
      (normName f :: aliases.map normName).findSome? (lastMatchCol cols)
  | none => none

/-- Spec §4.6, stated in the spec's own words: prefer the value under the
reconciled mapping, fall back to a same-named column if present, else
emit the empty string. -/
def specExportCell (m : List (String × String)) (row : Row) (f : String) :
    String :=
  match (m.lookup f).bind (rowGet row) with
  | some v => v
  | none =>
    match rowGet row f with
    | some v => v
    | none => ""

end PAF

namespace PAF

/-! ### Generic helper lemmas on association lists -/

theorem lookup_replaceAll {κ ν : Type} [BEq κ] [LawfulBEq κ]
    (d : List (κ × ν)) (k k' : κ) (v : ν) :
    (d.map (fun q => if q.1 == k then (k, v) else q)).lookup k' =
      if k' == k then (if d.any (fun q => q.1 == k) then some v else none)
      else d.lookup k' := by
  induction d with
  | nil => cases h : k' == k <;> simp [h, List.lookup]
  | cons p d ih =>
    rcases p with ⟨pk, pv⟩
    simp only [List.map_cons]
    cases hpk : pk == k with
    | true =>
      have hpk' : pk = k := eq_of_beq hpk
      subst hpk'
      cases hk : k' == pk with
      | true => simp [List.lookup, hk, hpk, List.any_cons]
      | false => simp [List.lookup, hk, hpk, ih]
    | false =>
      cases hk' : k' == pk with
      | true =>
        have hkk : (k' == k) = false := by
          rw [eq_of_beq hk']
          exact hpk
        simp [List.lookup, hk', hkk, hpk]
      | false =>
        cases hk : k' == k with
        | true =>
          simp only [List.lookup, hk']
          rw [ih, hk]
          simp only [List.any_cons, hpk, Bool.false_or, if_true]
        | false =>
          simp only [List.lookup, hk']
          rw [ih, hk]
          simp [List.lookup, hk']

theorem lookup_none_of_not_key {κ ν : Type} [BEq κ] [LawfulBEq κ]
    (d : List (κ × ν)) (k : κ) (h : d.any (fun q => q.1 == k) = false) :
    d.lookup k = none := by
  induction d with
  | nil => rfl
  | cons p d ih =>
    simp only [List.any_cons, Bool.or_eq_false_iff] at h
    have hk : (k == p.1) = false := by
      cases hc : k == p.1 with
      | true =>
        rw [eq_of_beq hc] at h
        simp at h
      | false => rfl
    simp [List.lookup, hk, ih h.2]

theorem lookup_append_single {κ ν : Type} [BEq κ] [LawfulBEq κ]
    (d : List (κ × ν)) (k k' : κ) (v : ν) :
    (d ++ [(k, v)]).lookup k' =
      match d.lookup k' with
      | some w => some w
      | none => if k' == k then some v else none := by
  induction d with
  | nil => cases h : k' == k <;> simp [h, List.lookup]
  | cons p d ih =>
    cases h : k' == p.1 <;> simp [List.lookup, h, ih]

theorem lookup_dictUpd {κ ν : Type} [BEq κ] [LawfulBEq κ]
    (d : List (κ × ν)) (k k' : κ) (v : ν) :
    (dictUpd d k v).lookup k' =
      if k' == k then some v else d.lookup k' := by
  unfold dictUpd
  by_cases hany : d.any (fun q => q.1 == k) = true
  · rw [if_pos hany, lookup_replaceAll, hany]
    simp only [if_true]
  · have hany' : d.any (fun q => q.1 == k) = false := by
      rw [Bool.eq_false_iff]
      exact hany
    rw [if_neg hany, lookup_append_single]
    cases hk : k' == k with
    | true => rw [eq_of_beq hk, lookup_none_of_not_key d k hany']
    | false => cases h : d.lookup k' <;> simp [hk]

theorem lookup_mem {κ ν : Type} [BEq κ] [LawfulBEq κ]
    {d : List (κ × ν)} {k : κ} {v : ν} (h : d.lookup k = some v) :
    (k, v) ∈ d := by
  induction d with
  | nil => simp [List.lookup] at h
  | cons p d ih =>
    cases hk : k == p.1 with
    | true =>
      simp only [List.lookup, hk] at h
      cases h
      have hkp : (k, p.2) = p := by
        rw [eq_of_beq hk]
      rw [hkp]
      exact List.mem_cons_self p d
    | false =>
      simp only [List.lookup, hk] at h
      exact List.mem_cons_of_mem _ (ih h)

theorem lookup_map_self {ν : Type} (f : String → ν) (l : List String)
    (k : String) (h : k ∈ l) :
    (l.map (fun c => (c, f c))).lookup k = some (f k) := by
  induction l with
  | nil => cases h
  | cons c l ih =>
    by_cases hk : k == c
    · simp [List.lookup, hk, eq_of_beq hk]
    · rcases List.mem_cons.mp h with h | h
      · subst h
        simp at hk
      · simp [List.lookup, hk, ih h]

theorem findSome?_eq_find? {α β : Type} (g : α → Option β) (l : List α) :
    (match l.find? (fun v => (g v).isSome) with
     | some v => g v
     | none => none) = l.findSome? g := by
  induction l with
  | nil => rfl
  | cons a l ih =>
    cases h : g a with
    | some b => simp [List.find?, List.findSome?, h]
    | none => simp [List.find?, List.findSome?, h, ih]

/-! ### Claim C5 -/

/-- C5: the claim lists "n°" among the inputs normalizing to "n", but the
transliteration pass rewrites the degree sign to "deg" before the
substitution rules run, so the `\bn°\b` rule never matches: a standalone
"n°" normalizes to "ndeg" (and "n° 5" to "ndeg 5"), while "numero" and
"n." do normalize to "n" as claimed. -/
theorem c5_degree_sign_transliterated_before_rules :
    normalize_address_val (some "n°") = "ndeg" ∧
    normalize_address_val (some "n° 5") = "ndeg 5" ∧
    normalize_address_val (some "numero") = "n" ∧
    normalize_address_val (some "n.") = "n" := by
  refine ⟨by decide, by decide, by decide, by decide⟩

/-! ### Claim C9 -/

/-- C9 counterexample: after one successful Download of a stored task, a
second Download of the same identifier still succeeds — the endpoint
never removes the entry, contradicting the claimed one-shot retrieval. -/
theorem c9_counterexample_second_download_succeeds :
    (download [("task:abc",
        ((["cidade", "groupColor"] : List String),
         [[("cidade", some "A"), ("groupColor", some "group-color-1")]]))]
      "task:abc").1 ≠ DownloadResult.notFound ∧
    (download
      (download [("task:abc",
          ((["cidade", "groupColor"] : List String),
           [[("cidade", some "A"), ("groupColor", some "group-color-1")]]))]
        "task:abc").2
      "task:abc").1 ≠ DownloadResult.notFound := by
  refine ⟨by decide, by decide⟩

/-- C9 amended: a successful Download does not remove the Task Result;
the store is returned unchanged, so a repeated Download of the same
identifier (before any TTL expiry, which the model does not advance)
succeeds again with the same exported rows. -/
theorem c9_amended_download_is_repeatable (store : Store) (tid : String)
    (df : StoredDf) (h : store.lookup tid = some df) :
    download store tid = (DownloadResult.file (exportRows df), store) ∧
    download (download store tid).2 tid =
      (DownloadResult.file (exportRows df), store) := by
  simp [download, h]

/-- Witness for the amended C9 at a concrete one-entry store. -/
theorem c9_amended_download_is_repeatable_witness :
    (([(("task:abc" : String), ((["x"], []) : StoredDf))] : Store).lookup
        "task:abc" = some ((["x"], []) : StoredDf)) ∧
    (download [("task:abc", ((["x"], []) : StoredDf))] "task:abc" =
        (DownloadResult.file (exportRows ((["x"], []) : StoredDf)),
         [("task:abc", ((["x"], []) : StoredDf))]) ∧
      download
          (download [("task:abc", ((["x"], []) : StoredDf))] "task:abc").2
          "task:abc" =
        (DownloadResult.file (exportRows ((["x"], []) : StoredDf)),
         [("task:abc", ((["x"], []) : StoredDf))])) :=
  ⟨by decide, c9_amended_download_is_repeatable _ _ _ (by decide)⟩

/-! ### String-append helpers for the validation message -/

theorem pyJoin_foldl_init (sep : String) (l : List String) (init : String) :
    ∃ w, l.foldl (fun acc x => acc ++ sep ++ x) init = init ++ w := by
  induction l generalizing init with
  | nil => exact ⟨"", by simp⟩
  | cons a t ih =>
    rcases ih (init ++ sep ++ a) with ⟨w, hw⟩
    refine ⟨sep ++ a ++ w, ?_⟩
    rw [List.foldl_cons, hw]
    simp only [String.append_assoc]

theorem mem_foldl_join (sep : String) (l : List String) (f : String)
    (hf : f ∈ l) (init : String) :
    ∃ u w, l.foldl (fun acc x => acc ++ sep ++ x) init = u ++ f ++ w := by
  induction l generalizing init with
  | nil => cases hf
  | cons a t ih =>
    rcases List.mem_cons.mp hf with h | h
    · subst h
      rcases pyJoin_foldl_init sep t (init ++ sep ++ f) with ⟨w, hw⟩
      refine ⟨init ++ sep, w, ?_⟩
      rw [List.foldl_cons, hw]
    · exact ih h (init ++ sep ++ a)

theorem mem_pyJoin (sep : String) (l : List String) (f : String) (hf : f ∈ l) :
    ∃ u w, pyJoin sep l = u ++ f ++ w := by
  cases l with
  | nil => cases hf
  | cons a t =>
    rcases List.mem_cons.mp hf with h | h
    · subst h
      rcases pyJoin_foldl_init sep t f with ⟨w, hw⟩
      refine ⟨"", w, ?_⟩
      rw [show pyJoin sep (f :: t) = t.foldl (fun acc x => acc ++ sep ++ x) f
            from rfl, hw]
      simp
    · exact mem_foldl_join sep t f h a

/-! ### Claim C7 -/

/-- C7: when any of the six required address fields is unmapped, the run
fails with the validation error, whose message contains every missing
standard field's name and its first alias; no response is produced and
the store is untouched (the error is raised before the store write). -/
theorem c7_missing_required_fields_fail_validation (fresh : String)
    (cols : List String) (rows : List Row) (store : Store)
    (h : missingCols cols ≠ []) :
    analyze fresh cols rows store = .error (validationMsg (missingCols cols)) ∧
    ∀ f ∈ missingCols cols,
      (∃ u w, validationMsg (missingCols cols) = u ++ f ++ w) ∧
      (∃ u w, validationMsg (missingCols cols) = u ++ firstAliasOf f ++ w) := by
  constructor
  · have hne : (missingCols cols).isEmpty = false := by
      cases hm : missingCols cols with
      | nil => exact absurd hm h
      | cons a t => rfl
    simp [analyze, hne]
  · intro f hf
    constructor
    · rcases mem_pyJoin ", " (missingCols cols) f hf with ⟨u, w, hw⟩
      refine ⟨"Colunas essenciais não encontradas ou não mapeadas corretamente: "
          ++ u,
        w ++ (". Verifique se o arquivo contém colunas como: "
          ++ pyStrDict ((missingCols cols).map (fun k => (k, firstAliasOf k)))),
        ?_⟩
      unfold validationMsg
      rw [hw]
      simp only [String.append_assoc]
    · have hmem : (sq ++ f ++ sq ++ ": " ++ sq ++ firstAliasOf f ++ sq) ∈
          ((missingCols cols).map (fun k => (k, firstAliasOf k))).map
            (fun p => sq ++ p.1 ++ sq ++ ": " ++ sq ++ p.2 ++ sq) := by
        apply List.mem_map.mpr
        exact ⟨(f, firstAliasOf f), List.mem_map.mpr ⟨f, hf, rfl⟩, rfl⟩
      rcases mem_pyJoin ", " _ _ hmem with ⟨u, w, hw⟩
      refine ⟨"Colunas essenciais não encontradas ou não mapeadas corretamente: "
          ++ pyJoin ", " (missingCols cols)
          ++ ". Verifique se o arquivo contém colunas como: "
          ++ "\x7b" ++ u ++ (sq ++ f ++ sq ++ ": " ++ sq),
        sq ++ (w ++ "\x7d"), ?_⟩
      unfold validationMsg pyStrDict
      rw [hw]
      simp only [String.append_assoc]

/-- Witness for C7: with no input columns at all, all six required fields
are missing and Analyze fails with the validation error. -/
theorem c7_missing_required_fields_fail_validation_witness :
    (missingCols [] ≠ []) ∧
    (analyze "x" [] [] [] = .error (validationMsg (missingCols [])) ∧
      ∀ f ∈ missingCols [],
        (∃ u w, validationMsg (missingCols []) = u ++ f ++ w) ∧
        (∃ u w, validationMsg (missingCols []) = u ++ firstAliasOf f ++ w)) :=
  ⟨by decide, c7_missing_required_fields_fail_validation "x" [] [] [] (by decide)⟩

/-! ### Claim C10 -/

theorem lookup_none_of_task_keys (store : Store) (tid : String)
    (hkeys : ∀ p ∈ store, p.1.data.take 5 = "task:".data)
    (hfresh : tid.data.take 5 ≠ "task:".data) :
    store.lookup tid = none := by
  induction store with
  | nil => rfl
  | cons p t ih =>
    have hne : (tid == p.1) = false := by
      cases hc : tid == p.1 with
      | true =>
        have h1 := hkeys p (List.mem_cons_self p t)
        rw [← eq_of_beq hc] at h1
        exact absurd h1 hfresh
      | false => rfl
    simp [List.lookup, hne,
      ih (fun q hq => hkeys q (List.mem_cons_of_mem p hq))]

/-- C10: when validation passes but every row's canonical address string
is empty, Analyze succeeds with the empty-result shape under the bare
`fresh` identifier (no "task:" prefix), the store is not written, and a
Download of that identifier reports not-found (all stored keys carry the
"task:" prefix, which a bare hex identifier never does). -/
theorem c10_all_empty_addresses_yield_unretrievable_task (fresh : String)
    (cols : List String) (rows : List Row) (store : Store)
    (hmap : missingCols cols = [])
    (hempty : ∀ r ∈ rows,
      concatenate_address_for_row r (get_col_mappings_from_df cols) = "")
    (hkeys : ∀ p ∈ store, p.1.data.take 5 = "task:".data)
    (hfresh : fresh.data.take 5 ≠ "task:".data) :
    analyze fresh cols rows store =
      .ok ({ task_id := fresh, preview_data := [], total_grouped_items := 0,
             total_groups := 0, group_colors_present := [] }, store) ∧
    (download store fresh).1 = DownloadResult.notFound := by
  have hval : validPairs (addrsOf cols rows) = [] := by
    apply List.filter_eq_nil.mpr
    intro p hp
    rcases p with ⟨i, a⟩
    have ha : a ∈ addrsOf cols rows :=
      List.get?_mem (List.mk_mem_enum_iff_get?.mp hp)
    have hae : a = "" := by
      rcases List.mem_map.mp ha with ⟨r, hr, hra⟩
      rw [← hra]
      exact hempty r hr
    simp [hae]
  constructor
  · simp [analyze, hmap, hval]
  · simp [download, lookup_none_of_task_keys store fresh hkeys hfresh]

/-- Witness for C10 on a concrete empty table with all required columns
mapped. -/
theorem c10_all_empty_addresses_yield_unretrievable_task_witness :
    (missingCols ["logradouro", "numero", "bairro", "cidade", "uf", "cep"]
      = []) ∧
    (∀ r ∈ ([] : List Row),
      concatenate_address_for_row r
        (get_col_mappings_from_df
          ["logradouro", "numero", "bairro", "cidade", "uf", "cep"]) = "") ∧
    (∀ p ∈ ([] : Store), p.1.data.take 5 = "task:".data) ∧
    ("abc".data.take 5 ≠ "task:".data) ∧
    (analyze "abc" ["logradouro", "numero", "bairro", "cidade", "uf", "cep"]
        [] [] =
      .ok ({ task_id := "abc", preview_data := [], total_grouped_items := 0,
             total_groups := 0, group_colors_present := [] }, []) ∧
    (download [] "abc").1 = DownloadResult.notFound) :=
  ⟨by decide, by simp, by simp, by decide,
    c10_all_empty_addresses_yield_unretrievable_task "abc"
      ["logradouro", "numero", "bairro", "cidade", "uf", "cep"] [] []
      (by decide) (by simp) (by simp) (by decide)⟩

/-! ### Claim C3 -/

theorem mem_dictUpd {κ ν : Type} [BEq κ] {d : List (κ × ν)} {k : κ} {v : ν}
    {p : κ × ν} (h : p ∈ dictUpd d k v) : p ∈ d ∨ p = (k, v) := by
  unfold dictUpd at h
  by_cases hany : d.any (fun q => q.1 == k) = true
  · rw [if_pos hany] at h
    rcases List.mem_map.mp h with ⟨q, hq, hfq⟩
    by_cases hqk : q.1 == k
    · right
      rw [← hfq, if_pos hqk]
    · left
      rw [← hfq, if_neg hqk]
      exact hq
  · rw [if_neg hany] at h
    rcases List.mem_append.mp h with h | h
    · exact Or.inl h
    · right
      simpa using h

theorem fieldFound_ne_empty {d : List (String × String)}
    {kv : String × List String} {c : String} (h : fieldFound d kv = some c) :
    c ≠ "" := by
  dsimp only [fieldFound] at h
  rcases hf : (if optTruthy (d.lookup (normName kv.1)) then
      d.lookup (normName kv.1)
    else
      match kv.2.find? (fun v => (d.lookup (normName v)).isSome) with
      | some v => d.lookup (normName v)
      | none => d.lookup (normName kv.1)) with _ | c'
  · rw [hf] at h
    simp at h
  · rw [hf] at h
    simp only [] at h
    by_cases hc : c' != ""
    · rw [if_pos hc] at h
      cases h
      simpa using hc
    · rw [if_neg hc] at h
      cases h

theorem mappings_values_nonempty (cols : List String) :
    ∀ p ∈ get_col_mappings_from_df cols, p.2 ≠ "" := by
  unfold get_col_mappings_from_df
  generalize POSSIBLE_COLUMN_MAPPINGS = fields
  have base : ∀ p ∈ ([] : List (String × String)), p.2 ≠ "" := by simp
  generalize hacc : ([] : List (String × String)) = acc at base
  clear hacc
  induction fields generalizing acc with
  | nil => exact base
  | cons kv fields ih =>
    simp only [List.foldl_cons]
    apply ih
    intro p hp
    rcases hff : fieldFound (buildColDict cols) kv with _ | c
    · rw [hff] at hp
      exact base p hp
    · rw [hff] at hp
      rcases mem_dictUpd hp with h | h
      · exact base p h
      · rw [h]
        exact fieldFound_ne_empty hff

theorem addr_fold_eq (row : Row) (m : List (String × String))
    (hm : ∀ f c, m.lookup f = some c → c ≠ "") (fs : List String) :
    ∀ acc : List String,
    fs.foldl
      (fun acc f =>
        match m.lookup f with
        | some col =>
          if col != "" then
            match rowGet row col with
            | some v =>
              let nv := normalize_address_val (some v)
              if nv != "" then acc ++ [nv] else acc
            | none => acc
          else acc
        | none => acc)
      acc =
    acc ++ fs.filterMap (fun f =>
      (m.lookup f).bind (fun col =>
        (rowGet row col).bind (fun v =>
          let nv := normalize_address_val (some v)
          if nv = "" then none else some nv))) := by
  induction fs with
  | nil => intro acc; simp
  | cons f fs ih =>
    intro acc
    cases hl : m.lookup f with
    | none => simp only [List.foldl_cons, List.filterMap_cons, hl]; exact ih acc
    | some col =>
      have hc : (col != "") = true := by
        simp only [bne_iff_ne, ne_eq]
        exact hm f col hl
      cases hr : rowGet row col with
      | none =>
        simp only [List.foldl_cons, List.filterMap_cons, hl, hc, if_true, hr,
          Option.some_bind, Option.none_bind]
        exact ih acc
      | some v =>
        by_cases he : normalize_address_val (some v) = ""
        · have hb : (normalize_address_val (some v) != "") = false := by
            simp [he]
          simp only [List.foldl_cons, List.filterMap_cons, hl, hc, if_true, hr,
            Option.some_bind, hb, Bool.false_eq_true, if_false, he, if_pos]
          exact ih acc
        · have hb : (normalize_address_val (some v) != "") = true := by
            simp [he]
          simp only [List.foldl_cons, List.filterMap_cons, hl, hc, if_true, hr,
            Option.some_bind, hb, if_true, if_neg he]
          rw [ih (acc ++ [normalize_address_val (some v)])]
          simp

/-- C3: for every row and every Field Mapping produced by the Schema
Reconciler, the Canonical Address String built by the source equals the
spec's description: the single-space join of the non-empty normalized
values of the seven address fields in fixed order, a field contributing
exactly when the mapping has an entry, the row has a non-null value under
the mapped column, and the normalized value is non-empty. -/
theorem c3_canonical_address_matches_spec (cols : List String) (row : Row) :
    concatenate_address_for_row row (get_col_mappings_from_df cols) =
      specCanonicalAddress row (get_col_mappings_from_df cols) := by
  have hm : ∀ f c, (get_col_mappings_from_df cols).lookup f = some c →
      c ≠ "" :=
    fun f c h => mappings_values_nonempty cols (f, c) (lookup_mem h)
  simp only [concatenate_address_for_row, specCanonicalAddress]
  rw [addr_fold_eq row _ hm ADDRESS_FIELDS []]
  simp

/-! ### Claim C6 -/

theorem lookup_buildColDict (cols : List String) (k : String) :
    (buildColDict cols).lookup k = lastMatchCol cols k := by
  unfold buildColDict lastMatchCol
  induction cols using List.reverseRecOn with
  | nil => rfl
  | append_singleton cols c ih =>
    rw [List.foldl_append, List.foldl_cons, List.foldl_nil, List.filter_append]
    by_cases hc : normName c = k
    · have hb : (k == normName c) = true := by simp [hc]
      have hb' : (normName c == k) = true := by simp [hc]
      rw [lookup_dictUpd, if_pos hb]
      simp [List.filter_cons, hb', List.getLast?_append]
    · have hb : (k == normName c) = false := by simp [Ne.symm hc]
      have hb' : (normName c == k) = false := by simp [hc]
      rw [lookup_dictUpd, if_neg (by simp [hb]), ih]
      simp [List.filter_cons, hb', List.getLast?_append]

theorem lastMatchCol_normName {cols : List String} {k c : String}
    (h : lastMatchCol cols k = some c) : normName c = k := by
  unfold lastMatchCol at h
  have hmem := List.mem_of_getLast?_eq_some h
  have := (List.mem_filter.mp hmem).2
  exact eq_of_beq this

theorem normName_empty : normName "" = "" := by decide

theorem lastMatchCol_ne_empty {cols : List String} {k c : String}
    (hk : k ≠ "") (h : lastMatchCol cols k = some c) : c ≠ "" := by
  intro hc
  apply hk
  rw [← lastMatchCol_normName h, hc, normName_empty]

theorem foldl_gcm_untouched (d : List (String × String))
    (fields : List (String × List String)) (m : List (String × String))
    (f : String) (hf : ∀ kv ∈ fields, (f == kv.1) = false) :
    (fields.foldl
      (fun m kv =>
        match fieldFound d kv with
        | some c => dictUpd m kv.1 c
        | none => m) m).lookup f = m.lookup f := by
  induction fields generalizing m with
  | nil => rfl
  | cons kv fields ih =>
    rw [List.foldl_cons]
    rw [ih _ (fun q hq => hf q (List.mem_cons_of_mem kv hq))]
    cases hff : fieldFound d kv with
    | none => rfl
    | some c =>
      rw [lookup_dictUpd, if_neg]
      simp [hf kv (List.mem_cons_self kv fields)]

theorem foldl_gcm_lookup (d : List (String × String))
    (fields : List (String × List String)) (m₀ : List (String × String))
    (f : String) (hnodup : (fields.map (·.1)).Nodup)
    (hm0 : ∀ kv ∈ fields, m₀.lookup kv.1 = none) :
    (fields.foldl
      (fun m kv =>
        match fieldFound d kv with
        | some c => dictUpd m kv.1 c
        | none => m) m₀).lookup f =
      match fields.lookup f with
      | some als => fieldFound d (f, als)
      | none => m₀.lookup f := by
  induction fields generalizing m₀ with
  | nil => rfl
  | cons kv fields ih =>
    rw [List.foldl_cons]
    simp only [List.map_cons, List.nodup_cons] at hnodup
    by_cases hfk : f = kv.1
    · have hb : (f == kv.1) = true := by simp [hfk]
      have huntouched : ∀ q ∈ fields, (f == q.1) = false := by
        intro q hq
        cases hc : f == q.1 with
        | true =>
          have h1 : q.1 = kv.1 := (eq_of_beq hc).symm.trans hfk
          have h2 : kv.1 ∈ fields.map (fun x => x.1) := by
            rw [← h1]
            exact List.mem_map.mpr ⟨q, hq, rfl⟩
          exact absurd h2 hnodup.1
        | false => rfl
      rw [foldl_gcm_untouched d fields _ f huntouched]
      simp only [List.lookup, hb]
      cases hff : fieldFound d kv with
      | none =>
        show List.lookup f m₀ = fieldFound d (f, kv.2)
        rw [hfk, Prod.mk.eta, hff, hm0 kv (List.mem_cons_self kv fields)]
      | some c =>
        show List.lookup f (dictUpd m₀ kv.1 c) = fieldFound d (f, kv.2)
        rw [lookup_dictUpd, if_pos hb, hfk, Prod.mk.eta, hff]
    · have hb : (f == kv.1) = false := by simp [hfk]
      have hm1 : ∀ q ∈ fields,
          (match fieldFound d kv with
           | some c => dictUpd m₀ kv.1 c
           | none => m₀).lookup q.1 = none := by
        intro q hq
        have hqk : (q.1 == kv.1) = false := by
          cases hc : q.1 == kv.1 with
          | true =>
            have h2 : kv.1 ∈ fields.map (fun x => x.1) := by
              rw [← eq_of_beq hc]
              exact List.mem_map.mpr ⟨q, hq, rfl⟩
            exact absurd h2 hnodup.1
          | false => rfl
        cases hff : fieldFound d kv with
        | none => exact hm0 q (List.mem_cons_of_mem kv hq)
        | some c =>
          rw [lookup_dictUpd, if_neg (by simp [hqk])]
          exact hm0 q (List.mem_cons_of_mem kv hq)
      rw [ih _ hnodup.2 hm1]
      simp only [List.lookup, hb]
      cases hl : fields.lookup f with
      | none =>
        cases hff : fieldFound d kv with
        | none => rfl
        | some c =>
          show List.lookup f (dictUpd m₀ kv.1 c) = List.lookup f m₀
          rw [lookup_dictUpd, if_neg (by simp [hb])]
      | some als => rfl

theorem findSome?_of_find?_eq_none {α β : Type} {g : α → Option β}
    {l : List α} (h : l.find? (fun a => (g a).isSome) = none) :
    l.findSome? g = none := by
  induction l with
  | nil => rfl
  | cons a t ih =>
    rw [List.find?_cons] at h
    cases ha : (g a).isSome with
    | true => rw [ha] at h; cases h
    | false =>
      rw [ha] at h
      rw [List.findSome?_cons]
      cases hga : g a with
      | some b => rw [hga] at ha; cases ha
      | none => exact ih h

theorem findSome?_of_find?_eq_some {α β : Type} {g : α → Option β}
    {l : List α} {v : α} (h : l.find? (fun a => (g a).isSome) = some v) :
    l.findSome? g = g v := by
  induction l with
  | nil => cases h
  | cons a t ih =>
    rw [List.find?_cons] at h
    cases ha : (g a).isSome with
    | true =>
      rw [ha] at h
      cases h
      rw [List.findSome?_cons]
      cases hga : g v with
      | some b => simp [hga]
      | none =>
        rw [hga] at ha
        cases ha
    | false =>
      rw [ha] at h
      rw [List.findSome?_cons]
      cases hga : g a with
      | some b =>
        rw [hga] at ha
        cases ha
      | none => exact ih h

theorem fieldFound_eq_findSome? (cols : List String) (f : String)
    (als : List String) (hf : normName f ≠ "")
    (hals : ∀ a ∈ als, normName a ≠ "") :
    fieldFound (buildColDict cols) (f, als) =
      (normName f :: als.map normName).findSome? (lastMatchCol cols) := by
  dsimp only [fieldFound]
  rw [List.findSome?_cons, lookup_buildColDict]
  cases h0 : lastMatchCol cols (normName f) with
  | some c =>
    have hc : c ≠ "" := lastMatchCol_ne_empty hf h0
    simp [optTruthy, hc]
  | none =>
    have ht : optTruthy (none : Option String) = false := rfl
    rw [ht]
    simp only [Bool.false_eq_true, if_false]
    rw [List.findSome?_map]
    have hgeq : ((lastMatchCol cols) ∘ normName) =
        (fun v => (buildColDict cols).lookup (normName v)) := by
      funext v
      simp [Function.comp, lookup_buildColDict]
    rw [hgeq]
    cases hfind : als.find?
        (fun v => ((buildColDict cols).lookup (normName v)).isSome) with
    | none =>
      rw [findSome?_of_find?_eq_none hfind]
    | some v =>
      have hp := List.find?_some hfind
      have hv : v ∈ als := List.mem_of_find?_eq_some hfind
      rw [findSome?_of_find?_eq_some hfind]
      dsimp only
      cases hlv : (buildColDict cols).lookup (normName v) with
      | none =>
        rw [hlv] at hp
      | some c =>
        have h1 : lastMatchCol cols (normName v) = some c := by
          rw [← lookup_buildColDict, hlv]
        have hcne : c ≠ "" := lastMatchCol_ne_empty (hals v hv) h1
        simp [hcne]

/-- C6: the Schema Reconciler maps a Standard Field to exactly the column
described by the spec: the first matching candidate among the field's own
normalized name and then its aliases in fixed order, where a candidate
matches the last input column sharing its normalized form (later
duplicates win); fields with no matching candidate, or outside the fixed
table, are omitted. -/
theorem c6_reconciler_matches_spec (cols : List String) (f : String) :
    (get_col_mappings_from_df cols).lookup f = specReconcile cols f := by
  dsimp only [get_col_mappings_from_df]
  rw [foldl_gcm_lookup (buildColDict cols) POSSIBLE_COLUMN_MAPPINGS [] f
    (by decide) (fun kv _ => rfl)]
  unfold specReconcile
  cases hpcm : POSSIBLE_COLUMN_MAPPINGS.lookup f with
  | none => rfl
  | some als =>
    have hmem := lookup_mem hpcm
    have hall : ∀ kv ∈ POSSIBLE_COLUMN_MAPPINGS,
        normName kv.1 ≠ "" ∧ ∀ a ∈ kv.2, normName a ≠ "" := by decide
    exact fieldFound_eq_findSome? cols f als (hall (f, als) hmem).1
      (hall (f, als) hmem).2

/-! ### Claim C8 -/

/-- C8 counterexample: a stored dataset with two columns recognized for
the same field (own name "cidade" and alias "city").  The value "B" is
present and non-empty under the recognized alias column "city", yet the
exported row carries the reconciled column's value "A" for Cidade and
"B" appears nowhere in the export. -/
theorem c8_counterexample_second_recognized_column_dropped :
    ("city" ∈ (POSSIBLE_COLUMN_MAPPINGS.lookup "Cidade").getD []) ∧
    rowGet [("cidade", some "A"), ("city", some "B"),
      ("groupColor", some "group-color-1")] "city" = some "B" ∧
    exportRows ((["cidade", "city", "groupColor"] : List String),
        [[("cidade", some "A"), ("city", some "B"),
          ("groupColor", some "group-color-1")]]) =
      [[("Proposta", ""), ("Logradouro", ""), ("Bairro", ""), ("Número", ""),
        ("Complemento", ""), ("Cidade", "A"), ("UF", ""), ("CEP", ""),
        ("Cliente", ""), ("Tipo de Pessoa", ""), ("CPF/CNPJ", "")]] ∧
    [[("Proposta", ""), ("Logradouro", ""), ("Bairro", ""), ("Número", ""),
      ("Complemento", ""), ("Cidade", "A"), ("UF", ""), ("CEP", ""),
      ("Cliente", ""), ("Tipo de Pessoa", ""), ("CPF/CNPJ", "")]].all
      (fun r => r.all (fun p => p.2 != "B")) = true := by
  refine ⟨by decide, by decide, by decide, by decide⟩

theorem exportCell_eq_spec (cols : List String) (row : Row) (f : String) :
    exportCell (get_col_mappings_from_df cols) row f =
      specExportCell (get_col_mappings_from_df cols) row f := by
  cases hl : (get_col_mappings_from_df cols).lookup f with
  | none => simp [exportCell, specExportCell, hl]
  | some col =>
    have hc : (col != "") = true := by
      simp only [bne_iff_ne, ne_eq]
      exact mappings_values_nonempty cols (f, col) (lookup_mem hl)
    cases hr : rowGet row col with
    | none => simp [exportCell, specExportCell, hl, hc, hr]
    | some v => simp [exportCell, specExportCell, hl, hc, hr]

/-- C8 amended: each export cell prefers the value under the single column
chosen by the reconciler for the field, falls back to a column named
exactly like the field, and is empty otherwise; in particular a value
present and non-null under the reconciled column is exported verbatim.
A field value stored only under a non-chosen recognized column does not
survive. -/
theorem c8_amended_export_follows_reconciled_mapping (df : StoredDf) :
    exportRows df = df.2.map (fun row =>
      OUTPUT_FIELD_ORDER.map (fun f =>
        (f, specExportCell (get_col_mappings_from_df df.1) row f))) ∧
    ∀ row ∈ df.2, ∀ f col v,
      f ∈ OUTPUT_FIELD_ORDER →
      (get_col_mappings_from_df df.1).lookup f = some col →
      rowGet row col = some v →
      (f, v) ∈ exportRow (get_col_mappings_from_df df.1) row := by
  constructor
  · dsimp only [exportRows]
    have h1 : exportRow (get_col_mappings_from_df df.1) =
        (fun row => OUTPUT_FIELD_ORDER.map
          (fun f => (f, specExportCell (get_col_mappings_from_df df.1) row f)))
        := by
      funext row
      dsimp only [exportRow]
      have h2 : (fun f => (f, exportCell (get_col_mappings_from_df df.1) row f))
          = (fun f =>
              (f, specExportCell (get_col_mappings_from_df df.1) row f)) := by
        funext f
        rw [exportCell_eq_spec]
      rw [h2]
    rw [h1]
  · intro row _ f col v hf hcol hv
    have hc : (col != "") = true := by
      simp only [bne_iff_ne, ne_eq]
      exact mappings_values_nonempty df.1 (f, col) (lookup_mem hcol)
    have hcell : exportCell (get_col_mappings_from_df df.1) row f = v := by
      simp [exportCell, hcol, hc, hv]
    exact List.mem_map.mpr ⟨f, hf, by rw [hcell]⟩

/-- Witness for the amended C8 at a concrete stored dataset. -/
theorem c8_amended_export_follows_reconciled_mapping_witness :
    (([("cidade", some "A"), ("groupColor", some "group-color-1")] : Row) ∈
        [[("cidade", some "A"), ("groupColor", some "group-color-1")]] ∧
      ("Cidade" : String) ∈ OUTPUT_FIELD_ORDER ∧
      (get_col_mappings_from_df ["cidade", "groupColor"]).lookup "Cidade" =
        some "cidade" ∧
      rowGet [("cidade", some "A"), ("groupColor", some "group-color-1")]
        "cidade" = some "A") ∧
    ("Cidade", "A") ∈ exportRow (get_col_mappings_from_df
        ["cidade", "groupColor"])
      [("cidade", some "A"), ("groupColor", some "group-color-1")] :=
  ⟨⟨by decide, by decide, by decide, by decide⟩,
    (c8_amended_export_follows_reconciled_mapping
        ((["cidade", "groupColor"] : List String),
         [[("cidade", some "A"), ("groupColor", some "group-color-1")]])).2
      [("cidade", some "A"), ("groupColor", some "group-color-1")] (by decide)
      "Cidade" "cidade" "A" (by decide) (by decide) (by decide)⟩

/-! ### Claim C1 -/

theorem mem_validPairs {addrs : List String} {i : Nat} {a : String}
    (h : (i, a) ∈ validPairs addrs) : addrs.get? i = some a ∧ a ≠ "" := by
  rcases List.mem_filter.mp h with ⟨he, hb⟩
  refine ⟨List.mk_mem_enum_iff_get?.mp he, ?_⟩
  simpa using hb

theorem mem_groupFor {addrs : List String} {a : String} {i : Nat} :
    i ∈ groupFor addrs a ↔ (i, a) ∈ validPairs addrs := by
  unfold groupFor
  rw [(List.perm_insertionSort _ _).mem_iff]
  constructor
  · intro h
    rcases List.mem_map.mp h with ⟨p, hp, hpi⟩
    rcases List.mem_filter.mp hp with ⟨hpv, hpa⟩
    rcases p with ⟨j, b⟩
    have hb : b = a := by simpa using hpa
    have hj : j = i := hpi
    rw [← hb, ← hj]
    exact hpv
  · intro h
    exact List.mem_map.mpr ⟨(i, a), List.mem_filter.mpr ⟨h, by simp⟩, rfl⟩

theorem groupFor_nodup (addrs : List String) (a : String) :
    (groupFor addrs a).Nodup := by
  unfold groupFor
  apply ((List.perm_insertionSort _ _).symm).nodup
  have hsub : List.Sublist
      (((validPairs addrs).filter (fun p => p.2 == a)).map (·.1))
      (addrs.enum.map (·.1)) :=
    List.Sublist.map _ ((List.filter_sublist _).trans (List.filter_sublist _))
  exact hsub.nodup (List.nodup_enum_map_fst addrs)

theorem groupFor_sorted (addrs : List String) (a : String) :
    List.Pairwise (· < ·) (groupFor addrs a) := by
  have hs : List.Sorted (· ≤ ·) (groupFor addrs a) :=
    List.sorted_insertionSort (· ≤ ·) _
  exact List.Sorted.lt_of_le hs (groupFor_nodup addrs a)

theorem mem_dupKeysSorted {addrs : List String} {a : String}
    (h : a ∈ dupKeysSorted addrs) : a ≠ "" := by
  unfold dupKeysSorted at h
  rw [(List.perm_insertionSort _ _).mem_iff] at h
  unfold dupStrings at h
  have hd := (List.mem_filter.mp h).1
  rcases List.mem_map.mp (List.mem_dedup.mp hd) with ⟨p, hp, hpa⟩
  rw [← hpa]
  have hp' : (p.1, p.2) ∈ validPairs addrs := by
    rw [Prod.mk.eta]
    exact hp
  exact (mem_validPairs hp').2

theorem dupKeysSorted_nodup (addrs : List String) :
    (dupKeysSorted addrs).Nodup := by
  unfold dupKeysSorted
  apply ((List.perm_insertionSort _ _).symm).nodup
  exact (List.nodup_dedup _).filter _

theorem mem_groups_exists_key {addrs : List String} {g : List Nat}
    (h : g ∈ groupsIndicesList addrs) :
    1 < g.length ∧ ∃ a ∈ dupKeysSorted addrs, g = groupFor addrs a := by
  unfold groupsIndicesList at h
  rcases List.mem_filter.mp h with ⟨hm, hl⟩
  refine ⟨by simpa using hl, ?_⟩
  rcases List.mem_map.mp hm with ⟨a, ha, hg⟩
  exact ⟨a, ha, hg.symm⟩

theorem groups_disjoint (addrs : List String) :
    List.Pairwise (fun g₁ g₂ => ∀ i ∈ g₁, i ∉ g₂)
      (groupsIndicesList addrs) := by
  unfold groupsIndicesList
  apply List.Pairwise.filter
  rw [List.pairwise_map]
  apply List.Pairwise.imp ?_ (dupKeysSorted_nodup addrs)
  intro a b hab i hia hib
  have h1 := (mem_validPairs (mem_groupFor.mp hia)).1
  have h2 := (mem_validPairs (mem_groupFor.mp hib)).1
  rw [h1] at h2
  cases h2
  exact hab rfl

/-- C1: every Duplicate Group has at least two members, its member
indices are strictly ascending original indices, all of its members share
one identical non-empty Canonical Address String, and no row index occurs
in two different groups. -/
theorem c1_duplicate_groups_wellformed (cols : List String)
    (rows : List Row) :
    (∀ g ∈ groupsIndicesList (addrsOf cols rows),
      2 ≤ g.length ∧ List.Pairwise (· < ·) g ∧
      ∃ a, a ≠ "" ∧ ∀ i ∈ g, (addrsOf cols rows).get? i = some a) ∧
    List.Pairwise (fun g₁ g₂ => ∀ i ∈ g₁, i ∉ g₂)
      (groupsIndicesList (addrsOf cols rows)) := by
  constructor
  · intro g hg
    rcases mem_groups_exists_key hg with ⟨hlen, a, ha, hga⟩
    refine ⟨hlen, ?_, a, mem_dupKeysSorted ha, ?_⟩
    · rw [hga]
      exact groupFor_sorted _ a
    · intro i hi
      rw [hga] at hi
      exact (mem_validPairs (mem_groupFor.mp hi)).1
  · exact groups_disjoint (addrsOf cols rows)

/-- Witness for C1 on a concrete table producing one group of two rows. -/
theorem c1_duplicate_groups_wellformed_witness :
    (([0, 1] : List Nat) ∈ groupsIndicesList (addrsOf ["rua", "numero",
      "bairro", "cidade", "uf", "cep"]
      [[("rua", some "A"), ("numero", some "1"), ("bairro", some "B"),
        ("cidade", some "C"), ("uf", some "SP"), ("cep", some "9")],
       [("rua", some "A"), ("numero", some "1"), ("bairro", some "B"),
        ("cidade", some "C"), ("uf", some "SP"), ("cep", some "9")]])) ∧
    (2 ≤ ([0, 1] : List Nat).length ∧
      List.Pairwise (· < ·) ([0, 1] : List Nat) ∧
      ∃ a, a ≠ "" ∧ ∀ i ∈ ([0, 1] : List Nat),
        (addrsOf ["rua", "numero", "bairro", "cidade", "uf", "cep"]
          [[("rua", some "A"), ("numero", some "1"), ("bairro", some "B"),
            ("cidade", some "C"), ("uf", some "SP"), ("cep", some "9")],
           [("rua", some "A"), ("numero", some "1"), ("bairro", some "B"),
            ("cidade", some "C"), ("uf", some "SP"),
            ("cep", some "9")]]).get? i = some a) :=
  ⟨by decide,
    (c1_duplicate_groups_wellformed ["rua", "numero", "bairro", "cidade",
        "uf", "cep"]
      [[("rua", some "A"), ("numero", some "1"), ("bairro", some "B"),
        ("cidade", some "C"), ("uf", some "SP"), ("cep", some "9")],
       [("rua", some "A"), ("numero", some "1"), ("bairro", some "B"),
        ("cidade", some "C"), ("uf", some "SP"), ("cep", some "9")]]).1
      [0, 1] (by decide)⟩

/-! ### Claim C2 -/

theorem colorOfRank_ne_empty (i : Nat) : colorOfRank i ≠ "" := by
  have h5 : i % 5 = 0 ∨ i % 5 = 1 ∨ i % 5 = 2 ∨ i % 5 = 3 ∨ i % 5 = 4 := by
    omega
  rcases h5 with h | h | h | h | h <;> simp [colorOfRank, GROUP_COLORS, h]

theorem foldl_dictUpd_const_lookup (g : List Nat) (v : String) :
    ∀ (m : List (Nat × String)) (idx : Nat),
    (g.foldl (fun m' j => dictUpd m' j v) m).lookup idx =
      if idx ∈ g then some v else m.lookup idx := by
  induction g with
  | nil => intro m idx; simp
  | cons j g ih =>
    intro m idx
    rw [List.foldl_cons, ih]
    by_cases hg : idx ∈ g
    · simp [hg, List.mem_cons]
    · rw [if_neg hg, lookup_dictUpd]
      by_cases hj : idx = j
      · simp [hj, List.mem_cons]
      · have hb : (idx == j) = false := by simp [hj]
        simp [hb, hj, hg, List.mem_cons]

theorem colorFold_untouched (egs : List (Nat × List Nat)) (idx : Nat)
    (h : ∀ p ∈ egs, idx ∉ p.2) :
    ∀ m : List (Nat × String),
    (egs.foldl
      (fun mp p => p.2.foldl (fun m' j => dictUpd m' j (colorOfRank p.1)) mp)
      m).lookup idx = m.lookup idx := by
  induction egs with
  | nil => intro m; rfl
  | cons p egs ih =>
    intro m
    rw [List.foldl_cons, ih (fun q hq => h q (List.mem_cons_of_mem p hq)),
      foldl_dictUpd_const_lookup, if_neg (h p (List.mem_cons_self p egs))]

theorem colorFold_lookup (egs : List (Nat × List Nat))
    (hdisj : List.Pairwise (fun p q => ∀ i ∈ p.2, i ∉ q.2) egs)
    {i : Nat} {g : List Nat} (hmem : (i, g) ∈ egs) {idx : Nat}
    (hidx : idx ∈ g) :
    ∀ m : List (Nat × String),
    (egs.foldl
      (fun mp p => p.2.foldl (fun m' j => dictUpd m' j (colorOfRank p.1)) mp)
      m).lookup idx = some (colorOfRank i) := by
  induction egs with
  | nil => cases hmem
  | cons p egs ih =>
    intro m
    rw [List.foldl_cons]
    rcases List.mem_cons.mp hmem with h | h
    · have hidx' : idx ∈ p.2 := by
        rw [← h]
        exact hidx
      have huntouch : ∀ q ∈ egs, idx ∉ q.2 := by
        intro q hq
        exact (List.pairwise_cons.mp hdisj).1 q hq idx hidx'
      rw [colorFold_untouched egs idx huntouch,
        foldl_dictUpd_const_lookup, if_pos hidx', ← h]
    · exact ih (List.pairwise_cons.mp hdisj).2 h _

theorem snd_mem_of_mem_enumFrom {α : Type} {p : Nat × α} {l : List α} :
    ∀ {n : Nat}, p ∈ l.enumFrom n → p.2 ∈ l := by
  induction l with
  | nil => intro n h; cases h
  | cons a l ih =>
    intro n h
    rw [List.enumFrom_cons] at h
    rcases List.mem_cons.mp h with h | h
    · rw [h]
      exact List.mem_cons_self a l
    · exact List.mem_cons_of_mem a (ih h)

theorem enum_pairwise_snd {α : Type} {R : α → α → Prop} {l : List α}
    (h : l.Pairwise R) :
    ∀ n : Nat, (l.enumFrom n).Pairwise (fun p q => R p.2 q.2) := by
  induction l with
  | nil => intro n; exact List.Pairwise.nil
  | cons a l ih =>
    intro n
    rw [List.enumFrom_cons]
    apply List.pairwise_cons.mpr
    constructor
    · intro q hq
      exact (List.pairwise_cons.mp h).1 q.2 (snd_mem_of_mem_enumFrom hq)
    · exact ih (List.pairwise_cons.mp h).2 (n + 1)

theorem rowColor_of_rank (addrs : List String) {i : Nat} {g : List Nat}
    (hig : (groupsIndicesList addrs).get? i = some g) {idx : Nat}
    (hidx : idx ∈ g) :
    rowColor (groupsIndicesList addrs) idx = some (colorOfRank i) := by
  unfold rowColor colorAssign
  have hdisj := enum_pairwise_snd (groups_disjoint addrs) 0
  have hmem : (i, g) ∈ (groupsIndicesList addrs).enum :=
    List.mk_mem_enum_iff_get?.mpr hig
  exact colorFold_lookup _ hdisj hmem hidx []

theorem mem_addCol_self (l : List String) (c : String) : c ∈ addCol l c := by
  unfold addCol
  by_cases h : l.contains c
  · rw [if_pos h]
    exact List.elem_iff.mp h
  · rw [if_neg h]
    exact List.mem_append.mpr (Or.inr (by simp))

theorem mem_addCol_of_mem (l : List String) (c c' : String) (h : c ∈ l) :
    c ∈ addCol l c' := by
  unfold addCol
  by_cases hc : l.contains c'
  · rw [if_pos hc]
    exact h
  · rw [if_neg hc]
    exact List.mem_append.mpr (Or.inl h)

theorem groupColor_mem_storedCols (cols : List String) :
    "groupColor" ∈ storedCols cols := by
  unfold storedCols
  apply List.mem_filter.mpr
  exact ⟨mem_addCol_self _ _, by decide⟩

theorem storedRow_groupColor (cs : List String) (row : Row)
    (color : Option String) (hc : "groupColor" ∈ cs) :
    (buildStoredRow cs row color).lookup "groupColor" =
      some (csvNormVal color) := by
  unfold buildStoredRow
  rw [lookup_map_self
    (fun c => csvNormVal (if c == "groupColor" then color
      else (row.lookup c).join)) cs _ hc]
  simp

theorem filterMap_eq_map_of_forall {α β : Type} (f : α → Option β)
    (g : α → β) : ∀ l : List α, (∀ a ∈ l, f a = some (g a)) →
    l.filterMap f = l.map g := by
  intro l
  induction l with
  | nil => intro _; rfl
  | cons a l ih =>
    intro h
    rw [List.filterMap_cons, h a (List.mem_cons_self a l), List.map_cons,
      ih (fun b hb => h b (List.mem_cons_of_mem a hb))]

theorem flatMap_enumFrom {α β : Type} (F : α → List β) (l : List α) :
    ∀ n : Nat, l.flatMap F = (l.enumFrom n).flatMap (fun p => F p.2) := by
  induction l with
  | nil => intro n; rfl
  | cons a l ih =>
    intro n
    rw [List.enumFrom_cons, List.flatMap_cons, List.flatMap_cons, ← ih (n + 1)]

theorem storedColors_eq (cols : List String) (rows : List Row)
    (addrs : List String) :
    (storedRowsOf cols rows (groupsIndicesList addrs)).filterMap
      (fun r => (r.lookup "groupColor").join) =
    ((groupsIndicesList addrs).enum).flatMap
      (fun p => p.2.map (fun _ => colorOfRank p.1)) := by
  unfold storedRowsOf
  rw [flatMap_enumFrom _ _ 0]
  show ((List.enumFrom 0 (groupsIndicesList addrs)).flatMap _).filterMap _ = _
  have hmain : ∀ egs : List (Nat × List Nat),
      (∀ p ∈ egs, ∀ idx ∈ p.2,
        rowColor (groupsIndicesList addrs) idx = some (colorOfRank p.1)) →
      ((egs.flatMap (fun p => p.2.map
          (fun idx => buildStoredRow (storedCols cols) (rows.getD idx [])
            (rowColor (groupsIndicesList addrs) idx)))).filterMap
        (fun r => (r.lookup "groupColor").join)) =
      egs.flatMap (fun p => p.2.map (fun _ => colorOfRank p.1)) := by
    intro egs
    induction egs with
    | nil => intro _; rfl
    | cons p egs ih =>
      intro h
      rw [List.flatMap_cons, List.flatMap_cons, List.filterMap_append,
        ih (fun q hq => h q (List.mem_cons_of_mem p hq)),
        List.filterMap_map]
      have hhead : p.2.filterMap
          ((fun r => (r.lookup "groupColor").join) ∘
            (fun idx => buildStoredRow (storedCols cols) (rows.getD idx [])
              (rowColor (groupsIndicesList addrs) idx))) =
          p.2.map (fun _ => colorOfRank p.1) := by
        apply filterMap_eq_map_of_forall
        intro idx hidx
        show ((buildStoredRow (storedCols cols) (rows.getD idx [])
            (rowColor (groupsIndicesList addrs) idx)).lookup
          "groupColor").join = some (colorOfRank p.1)
        rw [storedRow_groupColor _ _ _ (groupColor_mem_storedCols cols),
          h p (List.mem_cons_self p egs) idx hidx]
        simp [csvNormVal, colorOfRank_ne_empty p.1]
      rw [hhead]
  apply hmain
  intro p hp idx hidx
  have hig : (groupsIndicesList addrs).get? p.1 = some p.2 := by
    rw [← List.mk_mem_enum_iff_get?, Prod.mk.eta]
    exact hp
  exact rowColor_of_rank addrs hig hidx

theorem mem_uniqueFirstAux {α : Type} [BEq α] [LawfulBEq α] {a : α} :
    ∀ (l : List α) (seen : List α),
    a ∈ uniqueFirstAux seen l ↔ a ∈ l ∧ a ∉ seen := by
  intro l
  induction l with
  | nil => intro seen; simp [uniqueFirstAux]
  | cons b l ih =>
    intro seen
    unfold uniqueFirstAux
    by_cases hb : seen.contains b
    · rw [if_pos hb, ih]
      constructor
      · intro ⟨h1, h2⟩
        exact ⟨List.mem_cons_of_mem b h1, h2⟩
      · intro ⟨h1, h2⟩
        rcases List.mem_cons.mp h1 with h | h
        · exact absurd (h ▸ List.elem_iff.mp hb) h2
        · exact ⟨h, h2⟩
    · rw [if_neg hb]
      constructor
      · intro h
        rcases List.mem_cons.mp h with h | h
        · subst h
          refine ⟨List.mem_cons_self a l, fun hc => ?_⟩
          exact hb (List.elem_iff.mpr hc)
        · have := (ih (b :: seen)).mp h
          exact ⟨List.mem_cons_of_mem b this.1,
            fun hc => this.2 (List.mem_cons_of_mem b hc)⟩
      · intro ⟨h1, h2⟩
        rcases List.mem_cons.mp h1 with h | h
        · rw [h]
          exact List.mem_cons_self b _
        · by_cases hab : a = b
          · rw [hab]
            exact List.mem_cons_self b _
          · apply List.mem_cons_of_mem
            apply (ih (b :: seen)).mpr
            refine ⟨h, fun hc => ?_⟩
            rcases List.mem_cons.mp hc with h' | h'
            · exact hab h'
            · exact h2 h'

theorem uniqueFirstAux_nodup {α : Type} [BEq α] [LawfulBEq α] :
    ∀ (l : List α) (seen : List α), (uniqueFirstAux seen l).Nodup := by
  intro l
  induction l with
  | nil => intro seen; exact List.nodup_nil
  | cons b l ih =>
    intro seen
    unfold uniqueFirstAux
    by_cases hb : seen.contains b
    · rw [if_pos hb]
      exact ih seen
    · rw [if_neg hb]
      apply List.nodup_cons.mpr
      refine ⟨fun hc => ?_, ih (b :: seen)⟩
      exact ((mem_uniqueFirstAux l (b :: seen)).mp hc).2
        (List.mem_cons_self b seen)

theorem uniqueFirst_length_card (l : List String) :
    (uniqueFirst l).length = l.toFinset.card := by
  have hset : (uniqueFirst l).toFinset = l.toFinset := by
    apply Finset.ext
    intro a
    rw [List.mem_toFinset, List.mem_toFinset]
    unfold uniqueFirst
    rw [mem_uniqueFirstAux]
    simp
  rw [← hset]
  exact (List.toFinset_card_of_nodup (uniqueFirstAux_nodup l [])).symm

theorem groups_members_nonempty {addrs : List String} {g : List Nat}
    (h : g ∈ groupsIndicesList addrs) : g ≠ [] := by
  unfold groupsIndicesList at h
  have := (List.mem_filter.mp h).2
  intro hnil
  rw [hnil] at this
  simp at this

theorem colors_toFinset (addrs : List String) :
    (((groupsIndicesList addrs).enum).flatMap
        (fun p => p.2.map (fun _ => colorOfRank p.1))).toFinset =
      (Finset.range (groupsIndicesList addrs).length).image colorOfRank := by
  apply Finset.ext
  intro c
  rw [List.mem_toFinset, Finset.mem_image, List.mem_flatMap]
  constructor
  · intro ⟨p, hp, hc⟩
    rcases List.mem_map.mp hc with ⟨idx, _, hcolor⟩
    refine ⟨p.1, Finset.mem_range.mpr ?_, hcolor⟩
    have hget : (groupsIndicesList addrs).get? p.1 = some p.2 := by
      rw [← List.mk_mem_enum_iff_get?, Prod.mk.eta]
      exact hp
    rcases List.get?_eq_some.mp hget with ⟨hlt, _⟩
    exact hlt
  · intro ⟨i, hi, hcolor⟩
    have hlt := Finset.mem_range.mp hi
    have hget : (groupsIndicesList addrs).get? i =
        some ((groupsIndicesList addrs).get ⟨i, hlt⟩) := List.get?_eq_get hlt
    refine ⟨(i, (groupsIndicesList addrs).get ⟨i, hlt⟩),
      List.mk_mem_enum_iff_get?.mpr hget, ?_⟩
    have hne : (groupsIndicesList addrs).get ⟨i, hlt⟩ ≠ [] :=
      groups_members_nonempty (List.get_mem _ _ _)
    cases hg : (groupsIndicesList addrs).get ⟨i, hlt⟩ with
    | nil => exact absurd hg hne
    | cons j t =>
      apply List.mem_map.mpr
      exact ⟨j, List.mem_cons_self j t, hcolor⟩

theorem colorOfRank_mod (i : Nat) : colorOfRank i = colorOfRank (i % 5) := by
  unfold colorOfRank
  have h1 : GROUP_COLORS.length = 5 := rfl
  rw [h1, Nat.mod_eq_of_lt (Nat.mod_lt i (by omega))]

theorem colorOfRank_injOn_five :
    ∀ i < 5, ∀ j < 5, colorOfRank i = colorOfRank j → i = j := by decide

theorem card_image_colorOfRank (n : Nat) :
    ((Finset.range n).image colorOfRank).card = min n 5 := by
  by_cases h : n ≤ 5
  · rw [Finset.card_image_of_injOn, Finset.card_range, Nat.min_eq_left h]
    intro i hi j hj hij
    rw [Finset.coe_range, Set.mem_Iio] at hi hj
    exact colorOfRank_injOn_five i (by omega) j (by omega) hij
  · have himg : (Finset.range n).image colorOfRank =
        (Finset.range 5).image colorOfRank := by
      apply Finset.ext
      intro c
      rw [Finset.mem_image, Finset.mem_image]
      constructor
      · intro ⟨i, hi, hc⟩
        refine ⟨i % 5, Finset.mem_range.mpr (Nat.mod_lt _ (by omega)), ?_⟩
        rw [← colorOfRank_mod, hc]
      · intro ⟨i, hi, hc⟩
        have := Finset.mem_range.mp hi
        exact ⟨i, Finset.mem_range.mpr (by omega), hc⟩
    rw [himg, Finset.card_image_of_injOn, Finset.card_range,
      Nat.min_eq_right (by omega)]
    intro i hi j hj hij
    rw [Finset.coe_range, Set.mem_Iio] at hi hj
    exact colorOfRank_injOn_five i hi j hj hij

/-- C2: the coloring pass assigns to every row of the group at rank `i`
the palette color at index `i mod 5`; ranks `i` and `i + 5` get the same
color; and the list of distinct group colors present in the stored result
has exactly `min n 5` elements for a run with `n ≥ 1` groups. -/
theorem c2_group_colors_cycle (cols : List String) (rows : List Row)
    (hn : 1 ≤ (groupsIndicesList (addrsOf cols rows)).length) :
    (∀ i g, (groupsIndicesList (addrsOf cols rows)).get? i = some g →
      ∀ idx ∈ g, rowColor (groupsIndicesList (addrsOf cols rows)) idx =
        some (GROUP_COLORS.getD (i % 5) "")) ∧
    (∀ i, colorOfRank (i + 5) = colorOfRank i) ∧
    (groupColorsPresentOf (storedRowsOf cols rows
        (groupsIndicesList (addrsOf cols rows)))).length =
      min (groupsIndicesList (addrsOf cols rows)).length 5 := by
  refine ⟨?_, ?_, ?_⟩
  · intro i g hig idx hidx
    exact rowColor_of_rank (addrsOf cols rows) hig hidx
  · intro i
    unfold colorOfRank
    rw [show (i + 5) % GROUP_COLORS.length = i % GROUP_COLORS.length from
      Nat.add_mod_right i 5]
  · unfold groupColorsPresentOf
    rw [storedColors_eq cols rows (addrsOf cols rows)]
    rw [show uniqueFirst = fun l : List String => uniqueFirst l from rfl]
    rw [uniqueFirst_length_card, colors_toFinset, card_image_colorOfRank]

/-- Witness for C2 on a run producing exactly one duplicate group. -/
theorem c2_group_colors_cycle_witness :
    (1 ≤ (groupsIndicesList (addrsOf ["rua", "numero", "bairro", "cidade",
      "uf", "cep"]
      [[("rua", some "A"), ("numero", some "1"), ("bairro", some "B"),
        ("cidade", some "C"), ("uf", some "SP"), ("cep", some "9")],
       [("rua", some "A"), ("numero", some "1"), ("bairro", some "B"),
        ("cidade", some "C"), ("uf", some "SP"),
        ("cep", some "9")]])).length) ∧
    (groupColorsPresentOf (storedRowsOf ["rua", "numero", "bairro", "cidade",
        "uf", "cep"]
      [[("rua", some "A"), ("numero", some "1"), ("bairro", some "B"),
        ("cidade", some "C"), ("uf", some "SP"), ("cep", some "9")],
       [("rua", some "A"), ("numero", some "1"), ("bairro", some "B"),
        ("cidade", some "C"), ("uf", some "SP"), ("cep", some "9")]]
      (groupsIndicesList (addrsOf ["rua", "numero", "bairro", "cidade",
        "uf", "cep"]
        [[("rua", some "A"), ("numero", some "1"), ("bairro", some "B"),
          ("cidade", some "C"), ("uf", some "SP"), ("cep", some "9")],
         [("rua", some "A"), ("numero", some "1"), ("bairro", some "B"),
          ("cidade", some "C"), ("uf", some "SP"),
          ("cep", some "9")]])))).length =
      min (groupsIndicesList (addrsOf ["rua", "numero", "bairro", "cidade",
        "uf", "cep"]
        [[("rua", some "A"), ("numero", some "1"), ("bairro", some "B"),
          ("cidade", some "C"), ("uf", some "SP"), ("cep", some "9")],
         [("rua", some "A"), ("numero", some "1"), ("bairro", some "B"),
          ("cidade", some "C"), ("uf", some "SP"),
          ("cep", some "9")]])).length 5 :=
  ⟨by decide,
    (c2_group_colors_cycle ["rua", "numero", "bairro", "cidade", "uf", "cep"]
      [[("rua", some "A"), ("numero", some "1"), ("bairro", some "B"),
        ("cidade", some "C"), ("uf", some "SP"), ("cep", some "9")],
       [("rua", some "A"), ("numero", some "1"), ("bairro", some "B"),
        ("cidade", some "C"), ("uf", some "SP"), ("cep", some "9")]]
      (by decide)).2.2⟩

/-! ### Claim C4: character provenance through the pipeline -/

theorem charfix_uni_lower (c d : Char)
    (hd : d ∈ charUnidecode (charLower c)) : charLower d = d := by
  cases hl : LOWER_TABLE.lookup c with
  | some e =>
    have htab : ∀ p ∈ LOWER_TABLE, ∀ d' ∈ charUnidecode p.2,
        charLower d' = d' := by decide
    have hce : charLower c = e := by
      unfold charLower
      rw [hl]
    rw [hce] at hd
    exact htab (c, e) (lookup_mem hl) d hd
  | none =>
    have hcc : charLower c = c := by
      unfold charLower
      rw [hl]
    rw [hcc] at hd
    unfold charUnidecode at hd
    by_cases h128 : c.toNat < 128
    · rw [if_pos h128] at hd
      have hdc : d = c := by simpa using hd
      rw [hdc, hcc]
    · rw [if_neg h128] at hd
      cases hu : UNI_TABLE.lookup c with
      | some s =>
        rw [hu] at hd
        have htab2 : ∀ p ∈ UNI_TABLE, ∀ d' ∈ p.2.data, charLower d' = d' := by
          decide
        exact htab2 (c, s) (lookup_mem hu) d hd
      | none =>
        rw [hu] at hd
        have hdc : d = c := by simpa using hd
        rw [hdc, hcc]

theorem unilower_chars (l : List Char) (c : Char)
    (h : c ∈ pyUnidecode (pyLower l)) : charLower c = c := by
  rcases List.mem_flatMap.mp h with ⟨d, hd, hc⟩
  rcases List.mem_map.mp hd with ⟨e, _, hde⟩
  rw [← hde] at hc
  exact charfix_uni_lower e c hc

theorem subAux_chars (r : SubRule) :
    ∀ (s : List Char) (k : Nat) (b : Bool) (c : Char),
    c ∈ subAux r k b s → c ∈ s ∨ c ∈ r.repl := by
  intro s
  induction s with
  | nil =>
    intro k b c h
    cases k <;> cases h
  | cons a rest ih =>
    intro k b c h
    cases k with
    | succ k' =>
      rcases ih k' b c h with h | h
      · exact Or.inl (List.mem_cons_of_mem a h)
      · exact Or.inr h
    | zero =>
      rw [show subAux r 0 b (a :: rest) =
          (match firstAlt b r.alts (a :: rest) with
           | some alt =>
              r.repl ++ subAux r (alt.lit.length - 1)
                (isWordChar (alt.lit.getLastD a)) rest
           | none => a :: subAux r 0 (isWordChar a) rest) from rfl] at h
      cases hfa : firstAlt b r.alts (a :: rest) with
      | some alt =>
        rw [hfa] at h
        dsimp only at h
        rcases List.mem_append.mp h with h | h
        · exact Or.inr h
        · rcases ih _ _ c h with h' | h'
          · exact Or.inl (List.mem_cons_of_mem a h')
          · exact Or.inr h'
      | none =>
        rw [hfa] at h
        dsimp only at h
        rcases List.mem_cons.mp h with h | h
        · exact Or.inl (h ▸ List.mem_cons_self a rest)
        · rcases ih _ _ c h with h' | h'
          · exact Or.inl (List.mem_cons_of_mem a h')
          · exact Or.inr h'

theorem foldl_rules_chars :
    ∀ (rules : List SubRule) (s : List Char) (c : Char),
    c ∈ rules.foldl (fun acc r => applyRule r acc) s →
    c ∈ s ∨ ∃ r ∈ rules, c ∈ r.repl := by
  intro rules
  induction rules with
  | nil =>
    intro s c h
    exact Or.inl h
  | cons r rules ih =>
    intro s c h
    rw [List.foldl_cons] at h
    rcases ih (applyRule r s) c h with h' | h'
    · rcases subAux_chars r s 0 false c h' with h2 | h2
      · exact Or.inl h2
      · exact Or.inr ⟨r, List.mem_cons_self r rules, h2⟩
    · rcases h' with ⟨r', hr', hc⟩
      exact Or.inr ⟨r', List.mem_cons_of_mem r hr', hc⟩

theorem applySubs_chars (s : List Char) (c : Char) (h : c ∈ applySubs s) :
    c ∈ s ∨ ∃ r ∈ SUB_RULES, c ∈ r.repl :=
  foldl_rules_chars SUB_RULES s c h

theorem mem_pyStrip {l : List Char} {c : Char} (h : c ∈ pyStrip l) :
    c ∈ l := by
  unfold pyStrip at h
  rw [List.mem_reverse] at h
  have h1 := (List.dropWhile_sublist isPySpace).mem h
  rw [List.mem_reverse] at h1
  exact (List.dropWhile_sublist isPySpace).mem h1

theorem collapse_chars :
    ∀ (z : List Char) (b : Bool) (c : Char), c ∈ collapseAux b z →
    c = ' ' ∨ (c ∈ z ∧ isPySpace c = false) := by
  intro z
  induction z with
  | nil =>
    intro b c h
    cases h
  | cons a rest ih =>
    intro b c h
    unfold collapseAux at h
    by_cases ha : isPySpace a
    · rw [if_pos ha] at h
      by_cases hb : b
      · rw [if_pos hb] at h
        rcases ih true c h with h' | h'
        · exact Or.inl h'
        · exact Or.inr ⟨List.mem_cons_of_mem a h'.1, h'.2⟩
      · rw [if_neg hb] at h
        rcases List.mem_cons.mp h with h' | h'
        · exact Or.inl h'
        · rcases ih true c h' with h2 | h2
          · exact Or.inl h2
          · exact Or.inr ⟨List.mem_cons_of_mem a h2.1, h2.2⟩
    · rw [if_neg ha] at h
      rcases List.mem_cons.mp h with h' | h'
      · subst h'
        right
        exact ⟨List.mem_cons_self c rest, by simpa using ha⟩
      · rcases ih false c h' with h2 | h2
        · exact Or.inl h2
        · exact Or.inr ⟨List.mem_cons_of_mem a h2.1, h2.2⟩

theorem normalizeCore_chars (l : List Char) (c : Char)
    (h : c ∈ normalizeCore l) :
    charLower c = c ∧ (isWordChar c = true ∨ c = ' ') := by
  unfold normalizeCore collapseWs at h
  rcases collapse_chars _ false c h with h' | h'
  · subst h'
    exact ⟨by decide, Or.inr rfl⟩
  · rcases h' with ⟨hmem, hns⟩
    have hsp := mem_pyStrip hmem
    have hsp2 := List.mem_filter.mp hsp
    have hword : isWordChar c = true := by
      rcases Bool.or_eq_true_iff.mp hsp2.2 with h2 | h2
      · exact h2
      · rw [h2] at hns
        cases hns
    refine ⟨?_, Or.inl hword⟩
    rcases applySubs_chars _ c hsp2.1 with h3 | h3
    · exact unilower_chars l c h3
    · have htab : ∀ r ∈ SUB_RULES, ∀ c' ∈ r.repl, charLower c' = c' := by
        decide
      rcases h3 with ⟨r, hr, hc⟩
      exact htab r hr c hc

/-! ### Claim C4: stage-by-stage fixpoint lemmas -/

theorem map_id_of_mem {α : Type} (f : α → α) :
    ∀ l : List α, (∀ c ∈ l, f c = c) → l.map f = l := by
  intro l
  induction l with
  | nil => intro _; rfl
  | cons a l ih =>
    intro h
    rw [List.map_cons, h a (List.mem_cons_self a l),
      ih (fun c hc => h c (List.mem_cons_of_mem a hc))]

theorem flatMap_singleton_of_mem {α : Type} (f : α → List α) :
    ∀ l : List α, (∀ c ∈ l, f c = [c]) → l.flatMap f = l := by
  intro l
  induction l with
  | nil => intro _; rfl
  | cons a l ih =>
    intro h
    rw [List.flatMap_cons, h a (List.mem_cons_self a l),
      ih (fun c hc => h c (List.mem_cons_of_mem a hc))]
    rfl

theorem charUnidecode_eq_singleton (c : Char)
    (h : isWordChar c = true ∨ c = ' ') : charUnidecode c = [c] := by
  unfold charUnidecode
  by_cases h128 : c.toNat < 128
  · rw [if_pos h128]
  · rw [if_neg h128]
    have hkeys : ∀ p ∈ UNI_TABLE, isWordChar p.1 = false ∧ p.1 ≠ ' ' := by
      decide
    have hany : UNI_TABLE.any (fun q => q.1 == c) = false := by
      cases hc : UNI_TABLE.any (fun q => q.1 == c) with
      | false => rfl
      | true =>
        rcases List.any_eq_true.mp hc with ⟨p, hp, hpc⟩
        have hpc' : p.1 = c := eq_of_beq hpc
        rcases h with h | h
        · have h1 := (hkeys p hp).1
          rw [hpc'] at h1
          rw [h1] at h
          cases h
        · exact absurd (hpc'.trans h) (hkeys p hp).2
    rw [lookup_none_of_not_key UNI_TABLE c hany]

theorem head?_dropWhile {p : Char → Bool} :
    ∀ {l : List Char} {c : Char}, (l.dropWhile p).head? = some c →
    p c = false := by
  intro l
  induction l with
  | nil =>
    intro c h
    cases h
  | cons a l ih =>
    intro c h
    by_cases ha : p a
    · rw [List.dropWhile_cons, if_pos ha] at h
      exact ih h
    · rw [List.dropWhile_cons, if_neg ha] at h
      cases h
      simpa using ha

theorem dropWhile_eq_self {p : Char → Bool} {l : List Char}
    (h : ∀ c, l.head? = some c → p c = false) : l.dropWhile p = l := by
  cases l with
  | nil => rfl
  | cons a l =>
    rw [List.dropWhile_cons, if_neg (by simp [h a rfl])]

theorem pyStrip_head {x : List Char} {c : Char}
    (h : (pyStrip x).head? = some c) : isPySpace c = false := by
  unfold pyStrip at h
  rw [List.head?_reverse] at h
  have hw : (List.dropWhile isPySpace
      ((List.dropWhile isPySpace x).reverse)).getLast? = some c := h
  have hsplit := List.takeWhile_append_dropWhile isPySpace
    ((List.dropWhile isPySpace x).reverse)
  have hrev : ((List.dropWhile isPySpace x).reverse).getLast? = some c := by
    rw [← hsplit, List.getLast?_append, hw]
    rfl
  rw [List.getLast?_reverse] at hrev
  exact head?_dropWhile hrev

theorem pyStrip_last {x : List Char} {c : Char}
    (h : (pyStrip x).getLast? = some c) : isPySpace c = false := by
  unfold pyStrip at h
  rw [List.getLast?_reverse] at h
  exact head?_dropWhile h

theorem pyStrip_eq_self {l : List Char}
    (hh : ∀ c, l.head? = some c → isPySpace c = false)
    (hl : ∀ c, l.getLast? = some c → isPySpace c = false) :
    pyStrip l = l := by
  unfold pyStrip
  rw [dropWhile_eq_self hh]
  rw [dropWhile_eq_self (fun c hc => hl c (by rwa [List.head?_reverse] at hc))]
  exact List.reverse_reverse l

theorem collapseTrue_head :
    ∀ {z : List Char} {c : Char}, (collapseAux true z).head? = some c →
    isPySpace c = false := by
  intro z
  induction z with
  | nil =>
    intro c h
    cases h
  | cons a rest ih =>
    intro c h
    unfold collapseAux at h
    by_cases ha : isPySpace a
    · rw [if_pos ha, if_pos rfl] at h
      exact ih h
    · rw [if_neg ha] at h
      cases h
      simpa using ha

theorem collapse_head_of_not_space {z : List Char} {c : Char}
    (h : z.head? = some c) (hc : isPySpace c = false) :
    (collapseAux false z).head? = some c := by
  cases z with
  | nil => cases h
  | cons a rest =>
    cases h
    unfold collapseAux
    rw [if_neg (by simp [hc])]
    rfl

theorem collapse_last :
    ∀ (z : List Char) (b : Bool) (c : Char), z.getLast? = some c →
    isPySpace c = false → (collapseAux b z).getLast? = some c := by
  intro z
  induction z with
  | nil =>
    intro b c h _
    cases h
  | cons a rest ih =>
    intro b c h hc
    cases rest with
    | nil =>
      have hac : a = c := by simpa using h
      subst hac
      unfold collapseAux
      rw [if_neg (by simp [hc])]
      rfl
    | cons a' rest' =>
      rw [List.getLast?_cons_cons] at h
      have hrec : ∀ b', (collapseAux b' (a' :: rest')).getLast? = some c :=
        fun b' => ih b' c h hc
      have hne : ∀ b', collapseAux b' (a' :: rest') ≠ [] := by
        intro b' hnil
        have := hrec b'
        rw [hnil] at this
        cases this
      unfold collapseAux
      by_cases ha : isPySpace a
      · rw [if_pos ha]
        by_cases hb : b
        · rw [if_pos hb]
          exact hrec true
        · rw [if_neg hb]
          cases hcoll : collapseAux true (a' :: rest') with
          | nil => exact absurd hcoll (hne true)
          | cons d w =>
            rw [List.getLast?_cons_cons, ← hcoll]
            exact hrec true
      · rw [if_neg ha]
        cases hcoll : collapseAux false (a' :: rest') with
        | nil => exact absurd hcoll (hne false)
        | cons d w =>
          rw [List.getLast?_cons_cons, ← hcoll]
          exact hrec false

theorem collapse_chain' :
    ∀ (z : List Char) (b : Bool),
    List.Chain' (fun a b' => ¬(isPySpace a = true ∧ isPySpace b' = true))
      (collapseAux b z) := by
  intro z
  induction z with
  | nil =>
    intro b
    exact List.chain'_nil
  | cons a rest ih =>
    intro b
    unfold collapseAux
    by_cases ha : isPySpace a
    · rw [if_pos ha]
      by_cases hb : b
      · rw [if_pos hb]
        exact ih true
      · rw [if_neg hb]
        apply List.chain'_cons'.mpr
        refine ⟨?_, ih true⟩
        intro y hy hcon
        have hyf := collapseTrue_head hy
        rw [hcon.2] at hyf
        cases hyf
    · rw [if_neg ha]
      apply List.chain'_cons'.mpr
      refine ⟨?_, ih false⟩
      intro y _ hcon
      exact ha hcon.1

theorem collapse_eq_self :
    ∀ z : List Char, (∀ c ∈ z, isPySpace c = true → c = ' ') →
    List.Chain' (fun a b' => ¬(isPySpace a = true ∧ isPySpace b' = true)) z →
    collapseAux false z = z ∧
      ((∀ c, z.head? = some c → isPySpace c = false) →
        collapseAux true z = z) := by
  intro z
  induction z with
  | nil => intro _ _; exact ⟨rfl, fun _ => rfl⟩
  | cons a rest ih =>
    intro hsp hch
    have hrest := ih (fun c hc h => hsp c (List.mem_cons_of_mem a hc) h)
      hch.tail
    by_cases ha : isPySpace a
    · have ha' : a = ' ' := hsp a (List.mem_cons_self a rest) ha
      have hresthead : ∀ c, rest.head? = some c → isPySpace c = false := by
        intro c hc
        have := (List.chain'_cons'.mp hch).1 c hc
        cases hcsp : isPySpace c with
        | false => rfl
        | true => exact absurd ⟨ha, hcsp⟩ this
      constructor
      · show collapseAux false (a :: rest) = a :: rest
        unfold collapseAux
        rw [if_pos ha, if_neg (by simp), hrest.2 hresthead, ha']
      · intro hhead
        have := hhead a rfl
        rw [ha] at this
        cases this
    · constructor
      · show collapseAux false (a :: rest) = a :: rest
        unfold collapseAux
        rw [if_neg ha, hrest.1]
      · intro _
        show collapseAux true (a :: rest) = a :: rest
        unfold collapseAux
        rw [if_neg ha, hrest.1]

theorem wordChar_not_pySpace {c : Char} (hw : isWordChar c = true)
    (hsp : isPySpace c = true) : c = ' ' := by
  have hsp' : c = ' ' ∨ c = '\t' ∨ c = '\n' ∨ c = '\x0d' ∨
      c = '\x0b' ∨ c = '\x0c' := by
    unfold isPySpace at hsp
    simp only [Bool.or_eq_true, beq_iff_eq] at hsp
    tauto
  rcases hsp' with h | h | h | h | h | h
  · exact h
  · rw [h] at hw
    exact absurd hw (by decide)
  · rw [h] at hw
    exact absurd hw (by decide)
  · rw [h] at hw
    exact absurd hw (by decide)
  · rw [h] at hw
    exact absurd hw (by decide)
  · rw [h] at hw
    exact absurd hw (by decide)

set_option maxHeartbeats 2000000 in
theorem normalizeCore_fixpoint (l : List Char)
    (h : applySubs (normalizeCore l) = normalizeCore l) :
    normalizeCore (normalizeCore l) = normalizeCore l := by
  have hchars := normalizeCore_chars l
  have hlower : pyLower (normalizeCore l) = normalizeCore l :=
    map_id_of_mem charLower _ (fun c hc => (hchars c hc).1)
  have huni : pyUnidecode (normalizeCore l) = normalizeCore l :=
    flatMap_singleton_of_mem charUnidecode _
      (fun c hc => charUnidecode_eq_singleton c (hchars c hc).2)
  have hstrip : stripPunct (normalizeCore l) = normalizeCore l := by
    apply List.filter_eq_self.mpr
    intro c hc
    rcases (hchars c hc).2 with h2 | h2
    · rw [h2]
      rfl
    · rw [h2]
      decide
  have hedgehead : ∀ c, (normalizeCore l).head? = some c →
      isPySpace c = false := by
    intro c hc
    unfold normalizeCore collapseWs at hc
    cases hy : pyStrip (stripPunct (applySubs (pyUnidecode (pyLower l)))) with
    | nil =>
      rw [hy] at hc
      cases hc
    | cons a rest =>
      have hyh : (pyStrip (stripPunct (applySubs (pyUnidecode
          (pyLower l))))).head? = some a := by
        rw [hy]
        rfl
      have hahead : isPySpace a = false := pyStrip_head hyh
      rw [hy] at hc
      unfold collapseAux at hc
      rw [if_neg (by simp [hahead])] at hc
      cases hc
      exact hahead
  have hedgelast : ∀ c, (normalizeCore l).getLast? = some c →
      isPySpace c = false := by
    intro c hc
    unfold normalizeCore collapseWs at hc
    cases hy : pyStrip (stripPunct (applySubs (pyUnidecode (pyLower l)))) with
    | nil =>
      rw [hy] at hc
      cases hc
    | cons a rest =>
      have hgl : (a :: rest).getLast? = some (rest.getLast?.getD a) :=
        List.getLast?_cons
      have hyl : (pyStrip (stripPunct (applySubs (pyUnidecode
          (pyLower l))))).getLast? = some (rest.getLast?.getD a) := by
        rw [hy]
        exact hgl
      have hns : isPySpace (rest.getLast?.getD a) = false := pyStrip_last hyl
      have hcl := collapse_last (a :: rest) false _ hgl hns
      rw [hy] at hc
      rw [hcl] at hc
      cases hc
      exact hns
  have hspaces : ∀ c ∈ normalizeCore l, isPySpace c = true → c = ' ' := by
    intro c hc hsp
    rcases (normalizeCore_chars l c hc).2 with h2 | h2
    · exact wordChar_not_pySpace h2 hsp
    · exact h2
  have hchain : List.Chain'
      (fun a b' => ¬(isPySpace a = true ∧ isPySpace b' = true))
      (normalizeCore l) := by
    show List.Chain' _ (collapseAux false _)
    exact collapse_chain' _ false
  calc normalizeCore (normalizeCore l)
      = collapseWs (pyStrip (stripPunct (applySubs (pyUnidecode
          (pyLower (normalizeCore l)))))) := rfl
    _ = collapseWs (normalizeCore l) := by
        rw [hlower, huni, h, hstrip, pyStrip_eq_self hedgehead hedgelast]
    _ = normalizeCore l := (collapse_eq_self _ hspaces hchain).1

/-- C4 counterexample: the normalizer is not idempotent.  Punctuation
stripping can re-create a whole word that the substitution table
abbreviates: "r!u!a" normalizes to "rua", but normalizing "rua" gives
"r". -/
theorem c4_counterexample_normalize_not_idempotent :
    normalize_address_val (some (normalize_address_val (some "r!u!a"))) ≠
      normalize_address_val (some "r!u!a") := by decide

set_option maxHeartbeats 2000000 in
/-- C4 amended: the normalizer is idempotent exactly on the inputs whose
normalized form is left unchanged by the abbreviation-substitution pass:
whenever the nine substitution rules fix `normalize(s)`, a second
normalization returns it unchanged. -/
theorem c4_amended_idempotent_when_subs_fixed (s : String)
    (h : applySubs (normalize_address_val (some s)).data =
      (normalize_address_val (some s)).data) :
    normalize_address_val (some (normalize_address_val (some s))) =
      normalize_address_val (some s) := by
  by_cases hs : s = ""
  · subst hs
    rfl
  · have hval : normalize_address_val (some s) =
        String.mk (normalizeCore s.data) := by
      show (if s = "" then "" else String.mk (normalizeCore s.data)) =
        String.mk (normalizeCore s.data)
      rw [if_neg hs]
    rw [hval] at h ⊢
    have hdata : (String.mk (normalizeCore s.data)).data =
        normalizeCore s.data := rfl
    rw [hdata] at h
    by_cases ht : String.mk (normalizeCore s.data) = ""
    · rw [ht]
      rfl
    · show (if String.mk (normalizeCore s.data) = "" then ""
          else String.mk (normalizeCore
            (String.mk (normalizeCore s.data)).data)) =
        String.mk (normalizeCore s.data)
      rw [if_neg ht]
      rw [show (String.mk (normalizeCore s.data)).data =
        normalizeCore s.data from rfl]
      rw [normalizeCore_fixpoint s.data h]

/-- Witness for the amended C4 at a concrete address value whose
normalization is a fixed point of the substitution pass. -/
theorem c4_amended_idempotent_when_subs_fixed_witness :
    (applySubs (normalize_address_val (some "Av. Paulista, 100")).data =
      (normalize_address_val (some "Av. Paulista, 100")).data) ∧
    normalize_address_val (some (normalize_address_val
      (some "Av. Paulista, 100"))) =
      normalize_address_val (some "Av. Paulista, 100") :=
  ⟨by decide,
    c4_amended_idempotent_when_subs_fixed "Av. Paulista, 100" (by decide)⟩

end PAF
